import Mathlib

/-!
# ngsF-HMM: the log-space recursions of `HMM.cpp`

A shallow embedding of `src/HMM.cpp`: the forward, backward and Viterbi engines,
the likelihood objective `lkl`, the task submission `threadpool_add_task` and the task
body `thread_slave`.

## Numbers

Every number of the source is a C `double`.  The embedding keeps two sorts of them apart:

* `R`, the doubles on the linear scale: `F`, `aa`, the distances `pos_dist[s]` and the
  literal `1`;
* `L`, the doubles that hold logarithms: `data`, `prior`, the matrices `Fw`, `Bw`, `Vi`
  and every returned score.

`+`, unary `-`, `0.0`, `max` and `>` on `L` are the operations of the type (`Add`, `Neg`,
`Zero`, `Max`, `LT`).  The functions `log`, `logsum2`, `logsum3`, `logsum` and `calc_trans`
are declared in the header `ngsF-HMM.hpp`, which is not part of the sources; they are the
fields of `Prims`, so every definition below is the source's text over whatever these
functions compute.  The recursions, the labelling and the frame properties are proved for
arbitrary primitives, rounding included.

Theorems about exact arithmetic take the laws `Exact` (algebra) or `Ordered` (order) as a
hypothesis.  Two models satisfy them: `qPrims`, the logarithms of the non-negative
rationals, which is computable and on which the engines can be run, and `erealPrims`, the
extended reals with `logsum2 a b = log (exp a + exp b)`.  -infinity is `log 0`.  On the
logarithms of finite probabilities the laws are those of IEEE arithmetic without rounding;
on the extended reals they include the convention `-infinity + infinity = -infinity`.
The special values NaN and +infinity, which no model of `Exact` has, are the subject of
`IeeeLaws`; its computable model `XLog` adds them to the logarithms of the rationals.
Sums over state paths are stated through an exponential into the probabilities (`IsExp`),
best paths through the laws of `max` and `+` (`MaxPlus`); both models have them.

The optimizer `findmax_bfgs`, the pool's `threadpool_add` and the reporter `error` are
external too: the first two are parameters, the last aborts with its message.

## Memory

A `double **` matrix is a total function `Nat → Nat → L` (row, column), written cell by
cell with `DMat.set`; `prior` is `Nat → Nat → Nat → L`; the `char *path` is `Nat → Nat`.
Each engine takes the initial contents of its output buffer and returns the final contents
together with the returned `double`; the output buffer is a different object from the
input tables, which are read only.  The loop counters are `uint64_t`; a table of
`length + 1` rows exists only for `length < 2 ^ 64 - 1`, so no counter wraps and `Nat` is
exact for them.
-/

set_option linter.unusedVariables false

namespace NgsFHMM

/-- Modelled from the spec: the constant `N_STATES` of the missing header `ngsF-HMM.hpp`;
the spec fixes the size of the hidden-state space at 2 (0 = non-IBD, 1 = IBD). -/
def N_STATES : Nat := 2

/-- The numeric functions that `HMM.cpp` calls and `ngsF-HMM.hpp` declares:
`log`, `logsum2(a, b)`, `logsum3(a, b, c)`, `logsum(row, n)` and
`calc_trans(k, l, pos_dist, F, aa)`.  `logsum(row, n)` receives a pointer and a count; it
is given the `n` entries `row[0], ..., row[n-1]` it may read, as a list. -/
structure Prims (R L : Type) where
  log : R → L
  logsum2 : L → L → L
  logsum3 : L → L → L → L
  logsum : List L → L
  calc_trans : Nat → Nat → R → R → R → L

/-- A `double **` matrix: row, then column. -/
abbrev DMat (L : Type) : Type := Nat → Nat → L

/-- The assignment `M[i][j] = v`. -/
def DMat.set {L : Type} (M : DMat L) (i j : Nat) (v : L) : DMat L :=
  fun i' j' => if i' = i ∧ j' = j then v else M i' j'

/-- Body of the inner loop of `forward` (lines 103-106) for site `s` and state `l`. -/
def forward_cell {R L : Type} [Add L] (P : Prims R L) (data : DMat L) (F aa : R)
    (prior : Nat → Nat → Nat → L) (pos_dist : Nat → R) (s : Nat) (Fw : DMat L) (l : Nat) :
    DMat L :=
  let e_l := P.logsum3 (data s 0 + prior s l 0) (data s 1 + prior s l 1)
    (data s 2 + prior s l 2)
  Fw.set s l (P.logsum2 (Fw (s - 1) 0 + P.calc_trans 0 l (pos_dist s) F aa)
    (Fw (s - 1) 1 + P.calc_trans 1 l (pos_dist s) F aa) + e_l)

/-- The function `forward` (lines 97-110): final contents of `Fw` and the returned value. -/
def forward {R L : Type} [One R] [Sub R] [Add L] (P : Prims R L) (Fw : DMat L)
    (data : DMat L) (F aa : R) (prior : Nat → Nat → Nat → L) (path : Nat → Nat)
    (pos_dist : Nat → R) (length : Nat) : DMat L × L :=
  let Fw := Fw.set 0 0 (P.log (1 - F))
  let Fw := Fw.set 0 1 (P.log F)
  let Fw := (List.range' 1 length).foldl
    (fun Fw s => (List.range N_STATES).foldl (forward_cell P data F aa prior pos_dist s) Fw) Fw
  (Fw, P.logsum ((List.range 2).map (Fw length)))

/-- Body of the outer loop of `backward` (lines 120-126) for site `s`. -/
def backward_step {R L : Type} [Add L] (P : Prims R L) (data : DMat L) (F aa : R)
    (prior : Nat → Nat → Nat → L) (pos_dist : Nat → R) (Bw : DMat L) (s : Nat) : DMat L :=
  let e_nIBD := P.logsum3 (data s 0 + prior s 0 0) (data s 1 + prior s 0 1)
    (data s 2 + prior s 0 2)
  let e_IBD := P.logsum3 (data s 0 + prior s 1 0) (data s 1 + prior s 1 1)
    (data s 2 + prior s 1 2)
  (List.range N_STATES).foldl
    (fun Bw k => Bw.set (s - 1) k
      (P.logsum2 (P.calc_trans k 0 (pos_dist s) F aa + e_nIBD + Bw s 0)
        (P.calc_trans k 1 (pos_dist s) F aa + e_IBD + Bw s 1))) Bw

/-- The function `backward` (lines 115-133): final contents of `Bw` and the returned value.
The loop `for (s = length; s > 0; s--)` visits `length, length - 1, ..., 1`. -/
def backward {R L : Type} [One R] [Sub R] [Add L] (P : Prims R L) (Bw : DMat L)
    (data : DMat L) (F aa : R) (prior : Nat → Nat → Nat → L) (path : Nat → Nat)
    (pos_dist : Nat → R) (length : Nat) : DMat L × L :=
  let Bw := Bw.set length 0 (P.log 1)
  let Bw := Bw.set length 1 (P.log 1)
  let Bw := (List.range' 1 length).reverse.foldl (backward_step P data F aa prior pos_dist) Bw
  let Bw := Bw.set 0 0 (Bw 0 0 + P.log (1 - F))
  let Bw := Bw.set 0 1 (Bw 0 1 + P.log F)
  (Bw, P.logsum ((List.range 2).map (Bw 0)))

/-- Body of the inner loop of `viterbi` (lines 144-148) for site `s` and state `l`. -/
def viterbi_cell {R L : Type} [Add L] [Max L] (P : Prims R L) (data : DMat L) (F aa : R)
    (prior : Nat → Nat → Nat → L) (pos_dist : Nat → R) (s : Nat) (Vi : DMat L) (l : Nat) :
    DMat L :=
  let e_l := P.logsum3 (data s 0 + prior s l 0) (data s 1 + prior s l 1)
    (data s 2 + prior s l 2)
  Vi.set s l (max (Vi (s - 1) 0 + P.calc_trans 0 l (pos_dist s) F aa)
    (Vi (s - 1) 1 + P.calc_trans 1 l (pos_dist s) F aa) + e_l)

/-- The function `viterbi` (lines 138-155): final contents of `Vi`, final contents of
`path`, and the returned value. -/
def viterbi {R L : Type} [One R] [Sub R] [Add L] [Max L] [LT L]
    [DecidableRel (fun a b : L => a < b)] (P : Prims R L) (Vi : DMat L)
    (data : DMat L) (F aa : R) (prior : Nat → Nat → Nat → L) (path : Nat → Nat)
    (pos_dist : Nat → R) (length : Nat) : DMat L × (Nat → Nat) × L :=
  let Vi := Vi.set 0 0 (P.log (1 - F))
  let Vi := Vi.set 0 1 (P.log F)
  let Vi := (List.range' 1 length).foldl
    (fun Vi s => (List.range N_STATES).foldl (viterbi_cell P data F aa prior pos_dist s) Vi) Vi
  let path := (List.range' 1 length).foldl
    (fun path s => Function.update path s (if Vi s 0 > Vi s 1 then 0 else 1)) path
  (Vi, path, max (Vi length 0) (Vi length 1))

/-- The task descriptor `pth_struct` (lines 5-17).  The pointers `F` and `aa` are
represented by the values of the cells they point to. -/
structure pth_struct (R L : Type) where
  type : Int
  Fw : DMat L
  Bw : DMat L
  Vi : DMat L
  data : DMat L
  F : R
  aa : R
  prior : Nat → Nat → Nat → L
  path : Nat → Nat
  pos_dist : Nat → R
  length : Nat

/-- Modelled from the spec: `init_ptr(n, m, v)` of the missing header, which allocates the
private scratch matrix of `n` rows and `m` columns with every cell set to `v`. -/
def init_ptr {L : Type} (n m : Nat) (v : L) : DMat L := fun _ _ => v

/-- The function `lkl` (lines 85-93): the task context after the call and the returned
value.  The scratch matrix is allocated by `init_ptr` and released by `free_ptr`, so it is
local to the call. -/
def lkl {R L : Type} [One R] [Sub R] [Add L] [Zero L] [Neg L] (P : Prims R L)
    (pars : Nat → R) (p : pth_struct R L) : pth_struct R L × L :=
  let Fw := init_ptr (p.length + 1) N_STATES (0 : L)
  let lkl := (forward P Fw p.data (pars 0) (pars 1) p.prior p.path p.pos_dist p.length).2
  (p, -lkl)

/-- Modelled from the spec: `error(function, message)` of the missing header, the error
reporter that aborts the process with a descriptive message. -/
def error {α : Type} (func msg : String) : Except String α :=
  Except.error (func ++ ": " ++ msg)

/-- The function `threadpool_add_task` (lines 31-59).  `threadpool_add` is the submit of the
external thread pool: it returns the pool after the call and the `int` result code. -/
def threadpool_add_task {R L Pool : Type}
    (threadpool_add : Pool → pth_struct R L → Pool × Int) (thread_pool : Pool) (type : Int)
    (Fw Bw Vi data : DMat L) (F aa : R) (prior : Nat → Nat → Nat → L) (path : Nat → Nat)
    (pos_dist : Nat → R) (length : Nat) : Except String Pool :=
  let p : pth_struct R L :=
    { type := type, Fw := Fw, Bw := Bw, Vi := Vi, data := data, F := F, aa := aa,
      prior := prior, path := path, pos_dist := pos_dist, length := length }
  let r := threadpool_add thread_pool p
  let ret := r.2
  if ret = -1 then error "threadpool_add_task" "invalid thread pool!"
  else if ret = -2 then error "threadpool_add_task" "thread pool lock failure!"
  else if ret = -3 then error "threadpool_add_task" "queue full!"
  else if ret = -4 then error "threadpool_add_task" "thread pool is shutting down!"
  else if ret = -5 then error "threadpool_add_task" "thread failure!"
  else Except.ok r.1

/-- The array `{a, b}` of two entries: index 0 holds `a`, index 1 holds `b`; the array has
no further entry. -/
def arr2 {α : Type} (a b : α) : Nat → α := fun i => if i = 0 then a else b

/-- The external optimizer `findmax_bfgs(numpars, invec, dats, fun, dfun, lowbound,
upbound, nbd, noisy)` of the missing header: it gives the contents of `invec` after the
call and the returned `double`.  `dats` and the argument of `fun` are pointers to `const`,
so the optimizer sees the task context through the objective only; `dfun` is `NULL` when
absent. -/
abbrev Optimizer (R L D : Type) : Type :=
  Nat → (Nat → R) → D → ((Nat → R) → D → L) → Option ((Nat → R) → D → Nat → R) →
    (Nat → R) → (Nat → R) → (Nat → Int) → Int → (Nat → R) × L

/-- The function `thread_slave` (lines 61-81): the task context when the call ends, or
when `error` aborts it, and the outcome.  The values the engines return are dropped, as in
the source; `lkl` leaves the context as it is, so the objective handed to the optimizer is
its returned value. -/
def thread_slave {R L : Type} [Zero R] [One R] [Sub R] [Add L] [Zero L] [Neg L] [Max L]
    [LT L] [DecidableRel (fun a b : L => a < b)] (P : Prims R L)
    (findmax_bfgs : Optimizer R L (pth_struct R L)) (p : pth_struct R L) :
    pth_struct R L × Except String Unit :=
  if p.type = 1 then
    ({ p with Fw := (forward P p.Fw p.data p.F p.aa p.prior p.path p.pos_dist p.length).1 },
      Except.ok ())
  else if p.type = 2 then
    ({ p with Bw := (backward P p.Bw p.data p.F p.aa p.prior p.path p.pos_dist p.length).1 },
      Except.ok ())
  else if p.type = 3 then
    ({ p with
        Vi := (viterbi P p.Vi p.data p.F p.aa p.prior p.path p.pos_dist p.length).1,
        path := (viterbi P p.Vi p.data p.F p.aa p.prior p.path p.pos_dist p.length).2.1 },
      Except.ok ())
  else if p.type = 4 then
    let val : Nat → R := arr2 p.F p.aa
    let l_bound : Nat → R := arr2 0 0
    let u_bound : Nat → R := arr2 1 1
    let lims : Nat → Int := arr2 2 2
    let val := (findmax_bfgs 2 val p (fun pars data => (lkl P pars data).2) none
      l_bound u_bound lims (-1)).1
    ({ p with F := val 0, aa := val 1 }, Except.ok ())
  else (p, error "thread_slave" "invalid thread task option!")

/-! ## Loop shapes used in the proofs -/

/-- One site of an ascending engine: columns 0 and 1 of row `s` are written in turn from
row `s - 1` of the current matrix. -/
def rowStep {L : Type} (g : Nat → Nat → L → L → L) (M : DMat L) (s : Nat) : DMat L :=
  (List.range N_STATES).foldl (fun M l => M.set s l (g s l (M (s - 1) 0) (M (s - 1) 1))) M

/-- The ascending loop `for (s = 1; s <= n; s++)` over `rowStep`. -/
def rowLoop {L : Type} (g : Nat → Nat → L → L → L) (n : Nat) (M : DMat L) : DMat L :=
  (List.range' 1 n).foldl (rowStep g) M

/-- One site of the descending engine: columns 0 and 1 of row `s - 1` are written in turn
from row `s` of the current matrix. -/
def colStep {L : Type} (h : Nat → Nat → L → L → L) (M : DMat L) (s : Nat) : DMat L :=
  (List.range N_STATES).foldl (fun M k => M.set (s - 1) k (h s k (M s 0) (M s 1))) M

/-- The descending loop `for (s = n; s > 0; s--)` over `colStep`. -/
def colLoop {L : Type} (h : Nat → Nat → L → L → L) (n : Nat) (M : DMat L) : DMat L :=
  (List.range' 1 n).reverse.foldl (colStep h) M

/-- The value `forward` stores in `Fw[s][l]`, as a function of `Fw[s-1][0]` and
`Fw[s-1][1]`. -/
def fwVal {R L : Type} [Add L] (P : Prims R L) (data : DMat L) (F aa : R)
    (prior : Nat → Nat → Nat → L) (pos_dist : Nat → R) (s l : Nat) (a0 a1 : L) : L :=
  P.logsum2 (a0 + P.calc_trans 0 l (pos_dist s) F aa)
    (a1 + P.calc_trans 1 l (pos_dist s) F aa) +
  P.logsum3 (data s 0 + prior s l 0) (data s 1 + prior s l 1) (data s 2 + prior s l 2)

/-- The value `viterbi` stores in `Vi[s][l]`, as a function of `Vi[s-1][0]` and
`Vi[s-1][1]`. -/
def viVal {R L : Type} [Add L] [Max L] (P : Prims R L) (data : DMat L) (F aa : R)
    (prior : Nat → Nat → Nat → L) (pos_dist : Nat → R) (s l : Nat) (a0 a1 : L) : L :=
  max (a0 + P.calc_trans 0 l (pos_dist s) F aa)
    (a1 + P.calc_trans 1 l (pos_dist s) F aa) +
  P.logsum3 (data s 0 + prior s l 0) (data s 1 + prior s l 1) (data s 2 + prior s l 2)

/-- The value `backward` stores in `Bw[s-1][k]`, as a function of `Bw[s][0]` and
`Bw[s][1]`. -/
def bwVal {R L : Type} [Add L] (P : Prims R L) (data : DMat L) (F aa : R)
    (prior : Nat → Nat → Nat → L) (pos_dist : Nat → R) (s k : Nat) (b0 b1 : L) : L :=
  P.logsum2
    (P.calc_trans k 0 (pos_dist s) F aa +
      P.logsum3 (data s 0 + prior s 0 0) (data s 1 + prior s 0 1) (data s 2 + prior s 0 2) + b0)
    (P.calc_trans k 1 (pos_dist s) F aa +
      P.logsum3 (data s 0 + prior s 1 0) (data s 1 + prior s 1 1) (data s 2 + prior s 1 2) + b1)

/-! ## Exact arithmetic -/

/-- Exact arithmetic on the logarithms, with `log 0` for -infinity: `+` is a commutative
monoid with unit `0.0`, `logsum2` is commutative and associative (it is the sum of the
probabilities), `+` distributes over it, `logsum3` and `logsum` of two entries are iterated
`logsum2`, `log 1 = 0`, `log` turns the sum of two non-negative numbers into `logsum2`, and
-infinity is the unit of `logsum2` and absorbing for `+`.  These are the laws of
`a, b ↦ log (exp a + exp b)` and `+` on the logarithms of the non-negative reals, and of
the extended reals with `-infinity + infinity = -infinity`. -/
structure Exact {R L : Type} [LinearOrderedField R] [Add L] [Zero L] (P : Prims R L) :
    Prop where
  add_comm : ∀ a b : L, a + b = b + a
  add_assoc : ∀ a b c : L, a + b + c = a + (b + c)
  zero_add : ∀ a : L, 0 + a = a
  logsum2_comm : ∀ a b : L, P.logsum2 a b = P.logsum2 b a
  logsum2_assoc : ∀ a b c : L, P.logsum2 (P.logsum2 a b) c = P.logsum2 a (P.logsum2 b c)
  logsum2_add : ∀ a b c : L, P.logsum2 a b + c = P.logsum2 (a + c) (b + c)
  logsum3_eq : ∀ a b c : L, P.logsum3 a b c = P.logsum2 (P.logsum2 a b) c
  logsum_two : ∀ a b : L, P.logsum [a, b] = P.logsum2 a b
  log_one : P.log 1 = 0
  logsum2_log : ∀ x y : R, 0 ≤ x → 0 ≤ y → P.logsum2 (P.log x) (P.log y) = P.log (x + y)
  ninf_logsum2 : ∀ a : L, P.logsum2 (P.log 0) a = a
  ninf_add : ∀ a : L, P.log 0 + a = P.log 0

/-- Order laws of exact arithmetic: `≤` is a preorder, `+` and `logsum2` are monotone,
`logsum2` is at least each of its arguments, and `max a b` is below every common upper
bound of `a` and `b`. -/
structure Ordered {R L : Type} [Add L] [LE L] [Max L] (P : Prims R L) : Prop where
  le_refl : ∀ a : L, a ≤ a
  le_trans : ∀ a b c : L, a ≤ b → b ≤ c → a ≤ c
  add_le_add : ∀ a b c d : L, a ≤ b → c ≤ d → a + c ≤ b + d
  logsum2_le_logsum2 : ∀ a b c d : L, a ≤ b → c ≤ d → P.logsum2 a c ≤ P.logsum2 b d
  le_logsum2_left : ∀ a b : L, a ≤ P.logsum2 a b
  le_logsum2_right : ∀ a b : L, b ≤ P.logsum2 a b
  max_le : ∀ a b c : L, a ≤ c → b ≤ c → max a b ≤ c

/-- The logarithm of a non-negative rational, stored as that rational: `⟨q⟩` stands for
`log q`, so `⟨0⟩` is -infinity and `⟨1⟩` is `0.0`.  Sums of logarithms are products,
log-sum-exp is the sum, and the order is the order of the rationals. -/
structure LogQ where
  exp : NNRat
deriving DecidableEq

instance : Add LogQ := ⟨fun a b => ⟨a.exp * b.exp⟩⟩

instance : Zero LogQ := ⟨⟨1⟩⟩

instance : LE LogQ := ⟨fun a b => a.exp ≤ b.exp⟩

instance : LT LogQ := ⟨fun a b => a.exp < b.exp⟩

instance (a b : LogQ) : Decidable (a < b) :=
  decidable_of_iff ((a.exp : ℚ) < (b.exp : ℚ)) NNRat.coe_lt_coe

instance (a b : LogQ) : Decidable (a ≤ b) :=
  decidable_of_iff ((a.exp : ℚ) ≤ (b.exp : ℚ)) NNRat.coe_le_coe

instance : Max LogQ := ⟨fun a b => ⟨max a.exp b.exp⟩⟩

/-- Negation on `LogQ`: `-log q = log (1 / q)`.  The negation of -infinity is outside the
model; it is read as `log (1 / 0) = log 0`. -/
instance : Neg LogQ := ⟨fun a => ⟨a.exp⁻¹⟩⟩

/-- Exact primitives on `LogQ` over a transition function `ct`; the logarithm of a negative
number, which C leaves as NaN, is read as -infinity. -/
def qPrims (ct : Nat → Nat → ℚ → ℚ → ℚ → LogQ) : Prims ℚ LogQ where
  log x := ⟨x.toNNRat⟩
  logsum2 a b := ⟨a.exp + b.exp⟩
  logsum3 a b c := ⟨a.exp + b.exp + c.exp⟩
  logsum v := ⟨(v.map LogQ.exp).sum⟩
  calc_trans := ct

/-- Exact primitives on the extended reals over a transition function `ct`: `logsum2`,
`logsum3` and `logsum` are the logarithm of the sum of the exponentials, with
`log 0 = -infinity` and `exp (-infinity) = 0`; the logarithm of a negative number, which C
leaves as NaN, is read as -infinity. -/
noncomputable def erealPrims (ct : Nat → Nat → ℝ → ℝ → ℝ → EReal) : Prims ℝ EReal where
  log x := ENNReal.log (ENNReal.ofReal x)
  logsum2 a b := ENNReal.log (EReal.exp a + EReal.exp b)
  logsum3 a b c := ENNReal.log (EReal.exp a + EReal.exp b + EReal.exp c)
  logsum v := ENNReal.log ((v.map EReal.exp).sum)
  calc_trans := ct

/-- A two-state kernel with stationary distribution `{1 - F, F}`: stay with probability
`1 - aa`, otherwise draw the next state from the stationary distribution. -/
def mixTrans (k l : Nat) (d F aa : ℚ) : LogQ :=
  ⟨((1 - aa) * (if k = l then 1 else 0) + aa * (if l = 0 then 1 - F else F)).toNNRat⟩

/-- Sample emission log-likelihoods: site `s`, genotype `g` has likelihood `1 / (s + g + 1)`. -/
def demoData : DMat LogQ := fun s g => ⟨1 / ((s : NNRat) + g + 1)⟩

/-- Sample prior table: state `l`, genotype `g` has weight `(l + g + 1) / 6`. -/
def demoPrior : Nat → Nat → Nat → LogQ := fun _ l g => ⟨((l : NNRat) + g + 1) / 6⟩

/-- Sample distances. -/
def demoDist : Nat → ℚ := fun s => s

/-- Sample buffer contents. -/
def demoBuf : DMat LogQ := fun i j => ⟨(i : NNRat) + j⟩

/-- Emission log-likelihoods of the concrete scenario: `{0, -infinity, -infinity}`. -/
def scenData : DMat LogQ := fun _ g => if g = 0 then ⟨1⟩ else ⟨0⟩

/-- Prior table of the concrete scenario: genotype 0 has weight `log 1` in state 0 and
`log 0` in state 1; the other genotypes have weight `log (1/3)`. -/
def scenPrior : Nat → Nat → Nat → LogQ :=
  fun _ l g => if g = 0 then (if l = 0 then ⟨1⟩ else ⟨0⟩) else ⟨1 / 3⟩

/-- A sample task of the given kind over the sample sequence of length 2, with `F = 1/4`
and `aa = 1/2`. -/
def demoTask (type : Int) : pth_struct ℚ LogQ :=
  { type := type, Fw := demoBuf, Bw := demoBuf, Vi := demoBuf, data := demoData, F := 1 / 4,
    aa := 1 / 2, prior := demoPrior, path := fun _ => 7, pos_dist := demoDist, length := 2 }

/-- A stand-in optimizer: it leaves the centre of the box in the value vector and returns
the objective there. -/
def boxMid {R L D : Type} [Add R] [Div R] [OfNat R 2] : Optimizer R L D :=
  fun _ _ dats fn _ lowbound upbound _ _ =>
    (fun i => (lowbound i + upbound i) / 2, fn (fun i => (lowbound i + upbound i) / 2) dats)

/-- A pool with a bounded queue: a task is appended (code 0) while fewer than `cap` tasks
are queued, and refused with the queue-full code -3 otherwise. -/
def boundedAdd {T : Type} (cap : Nat) (q : List T) (t : T) : List T × Int :=
  if q.length < cap then (q ++ [t], 0) else (q, -3)

/-- The transition function has stationary distribution `{1 - F, F}` across distance `d`:
entering state `l` from the stationary distribution gives the stationary probability of
`l` again, in log space. -/
def Stationary {R L : Type} [One R] [Sub R] [Add L] (P : Prims R L) (d F aa : R) : Prop :=
  P.logsum2 (P.log (1 - F) + P.calc_trans 0 0 d F aa) (P.log F + P.calc_trans 1 0 d F aa) =
      P.log (1 - F) ∧
  P.logsum2 (P.log (1 - F) + P.calc_trans 0 1 d F aa) (P.log F + P.calc_trans 1 1 d F aa) =
      P.log F

/-- All state sequences `(z_0, ..., z_n)` over the states 0 and 1 that end in state `l`:
for `n = 0` the one sequence `(l)`, and for `n + 1` every sequence of length `n + 1`
followed by `l`. -/
def seqsEnding : Nat → Nat → List (List Nat)
  | 0, l => [[l]]
  | n + 1, l => (seqsEnding n 0 ++ seqsEnding n 1).map (fun z => z ++ [l])

/-- All `2 ^ (n + 1)` state sequences `(z_0, ..., z_n)` over the states 0 and 1. -/
def allSeqs (n : Nat) : List (List Nat) := seqsEnding n 0 ++ seqsEnding n 1

/-- The joint log-probability of the state sequence `z = (z_0, ..., z_n)` with the data:
`log pi(z_0)` plus, for `s = 1..n` in turn, `calc_trans(z_{s-1}, z_s, pos_dist[s], F, aa)`
plus the emission term `logsum3(data[s][g] + prior[s][z_s][g], g = 0,1,2)`; `pi(0) = 1-F`
and `pi(1) = F`. -/
def pathScore {R L : Type} [One R] [Sub R] [Add L] (P : Prims R L) (data : DMat L)
    (F aa : R) (prior : Nat → Nat → Nat → L) (pos_dist : Nat → R) (n : Nat) (z : List Nat) :
    L :=
  (List.range' 1 n).foldl
    (fun acc s => acc +
      (P.calc_trans (z.getD (s - 1) 0) (z.getD s 0) (pos_dist s) F aa +
        P.logsum3 (data s 0 + prior s (z.getD s 0) 0) (data s 1 + prior s (z.getD s 0) 1)
          (data s 2 + prior s (z.getD s 0) 2)))
    (P.log (if z.getD 0 0 = 0 then 1 - F else F))

/-- The joint probability of the state sequence `z = (z_0, ..., z_n)` with the data, for an
exponential `exp` from the logarithms into the probabilities: `pi(z_0)` times the product
over `s = 1..n` of `exp(calc_trans(z_{s-1}, z_s, pos_dist[s], F, aa))` times the sum over
`g = 0,1,2` of `exp(data[s][g] + prior[s][z_s][g])`; `pi(0) = exp(log(1-F))` and
`pi(1) = exp(log(F))`. -/
def pathProb {R L S : Type} [One R] [Sub R] [Add L] [CommSemiring S] (P : Prims R L)
    (exp : L → S) (data : DMat L) (F aa : R) (prior : Nat → Nat → Nat → L)
    (pos_dist : Nat → R) (n : Nat) (z : List Nat) : S :=
  exp (P.log (if z.getD 0 0 = 0 then 1 - F else F)) *
    ((List.range' 1 n).map (fun s =>
      exp (P.calc_trans (z.getD (s - 1) 0) (z.getD s 0) (pos_dist s) F aa) *
        ((List.range 3).map (fun g => exp (data s g + prior s (z.getD s 0) g))).sum)).prod

/-- An exponential for the primitives: `exp` maps the logarithms into a commutative
semiring of probabilities, turns `+` into the product and `logsum2`, `logsum3` and `logsum`
of two entries into the sum, and undoes `log` on the non-negative numbers, which `ofR`
embeds into the probabilities.  This is what "logsum is the exact log-sum-exp" says. -/
structure IsExp {R L S : Type} [LinearOrderedField R] [Add L] [CommSemiring S]
    (P : Prims R L) (exp : L → S) (ofR : R → S) : Prop where
  exp_add : ∀ a b : L, exp (a + b) = exp a * exp b
  exp_logsum2 : ∀ a b : L, exp (P.logsum2 a b) = exp a + exp b
  exp_logsum3 : ∀ a b c : L, exp (P.logsum3 a b c) = exp a + exp b + exp c
  exp_logsum : ∀ a b : L, exp (P.logsum [a, b]) = exp a + exp b
  exp_log : ∀ x : R, 0 ≤ x → exp (P.log x) = ofR x

/-- Laws of `max` and `+` in exact arithmetic: `+` is associative and monotone in its left
argument, `≤` is reflexive and transitive, and `max a b` is one of `a`, `b` and at least
both. -/
structure MaxPlus (L : Type) [Add L] [LE L] [Max L] : Prop where
  add_assoc : ∀ a b c : L, a + b + c = a + (b + c)
  le_refl : ∀ a : L, a ≤ a
  le_trans : ∀ a b c : L, a ≤ b → b ≤ c → a ≤ c
  add_le_add_right : ∀ a b c : L, a ≤ b → a + c ≤ b + c
  le_max_left : ∀ a b : L, a ≤ max a b
  le_max_right : ∀ a b : L, b ≤ max a b
  max_choice : ∀ a b : L, max a b = a ∨ max a b = b

/-- Emission log-likelihoods of a sequence of length 2 that favours state 0 slightly at
site 1 (`3/5` against `1/2`) and state 1 strongly at site 2 (`1` against `1/100`);
genotype 2 has likelihood 0. -/
def trapData : DMat LogQ := fun s g =>
  if g = 0 then (if s = 1 then ⟨3 / 5⟩ else ⟨1 / 100⟩)
  else if g = 1 then (if s = 1 then ⟨1 / 2⟩ else ⟨1⟩)
  else ⟨0⟩

/-- Prior table that gives state `l` weight 1 on genotype `l` and 0 on the others, so that
the emission term of state `l` at site `s` is `trapData s l`. -/
def trapPrior : Nat → Nat → Nat → LogQ := fun _ l g => if g = l then ⟨1⟩ else ⟨0⟩

/-! ## Arithmetic with the IEEE special values -/

/-- A regular value: a `double` that is neither NaN nor +infinity (a finite logarithm or
-infinity). -/
def Regular {L : Type} (isNaN : L → Prop) (pinf : L) (a : L) : Prop := ¬ isNaN a ∧ a ≠ pinf

/-- Arithmetic that is exact apart from the IEEE special values, with `isNaN` the test for
NaN and `pinf` the value +infinity.  `log` of a non-negative number is regular and `log`
of a negative number is NaN; `+`, `logsum2` and `logsum3` of regular values are regular;
-infinity plus a regular value is -infinity, while -infinity plus +infinity is NaN; and
`logsum2`, `logsum3` and `logsum` of -infinity operands are -infinity, the absorption the
spec requires of the log-sum-exp functions. -/
structure IeeeLaws {R L : Type} [LinearOrderedField R] [Add L] (P : Prims R L)
    (isNaN : L → Prop) (pinf : L) : Prop where
  log_regular : ∀ x : R, 0 ≤ x → Regular isNaN pinf (P.log x)
  log_neg : ∀ x : R, x < 0 → isNaN (P.log x)
  add_regular : ∀ a b : L, Regular isNaN pinf a → Regular isNaN pinf b →
    Regular isNaN pinf (a + b)
  logsum2_regular : ∀ a b : L, Regular isNaN pinf a → Regular isNaN pinf b →
    Regular isNaN pinf (P.logsum2 a b)
  logsum3_regular : ∀ a b c : L, Regular isNaN pinf a → Regular isNaN pinf b →
    Regular isNaN pinf c → Regular isNaN pinf (P.logsum3 a b c)
  ninf_add : ∀ a : L, Regular isNaN pinf a → P.log 0 + a = P.log 0
  add_ninf : ∀ a : L, Regular isNaN pinf a → a + P.log 0 = P.log 0
  ninf_add_pinf : isNaN (P.log 0 + pinf)
  logsum2_ninf : P.logsum2 (P.log 0) (P.log 0) = P.log 0
  logsum3_ninf : P.logsum3 (P.log 0) (P.log 0) (P.log 0) = P.log 0
  logsum_ninf : P.logsum [P.log 0, P.log 0] = P.log 0

/-- A C `double` that holds a logarithm, in arithmetic that is exact apart from the IEEE
special values: `nan`, `pinf` for +infinity, and `val e` for the logarithm of the
non-negative rational `e`, so that `val 0` is -infinity and `val 1` is `0.0`. -/
inductive XLog where
  | nan : XLog
  | val (e : NNRat) : XLog
  | pinf : XLog
deriving DecidableEq

/-- The `+` of C doubles on `XLog`: NaN is contagious, -infinity plus +infinity is NaN,
+infinity plus any other value is +infinity, and the sum of two logarithms is the
logarithm of the product. -/
def XLog.add : XLog → XLog → XLog
  | XLog.nan, _ => XLog.nan
  | _, XLog.nan => XLog.nan
  | XLog.pinf, XLog.pinf => XLog.pinf
  | XLog.pinf, XLog.val e => if e = 0 then XLog.nan else XLog.pinf
  | XLog.val e, XLog.pinf => if e = 0 then XLog.nan else XLog.pinf
  | XLog.val a, XLog.val b => XLog.val (a * b)

instance : Add XLog := ⟨XLog.add⟩

/-- Modelled from the spec: `logsum2` of the missing header as the exact log-sum-exp that
absorbs -infinity operands; NaN is contagious and +infinity dominates, as for any
computation on doubles. -/
def XLog.logsum2 : XLog → XLog → XLog
  | XLog.nan, _ => XLog.nan
  | _, XLog.nan => XLog.nan
  | XLog.pinf, _ => XLog.pinf
  | _, XLog.pinf => XLog.pinf
  | XLog.val a, XLog.val b => XLog.val (a + b)

/-- Primitives on `XLog` over a transition function `ct`: the `log` of C (NaN on a negative
number, -infinity at 0) and the log-sum-exp functions built on `XLog.logsum2`. -/
def xPrims (ct : Nat → Nat → ℚ → ℚ → ℚ → XLog) : Prims ℚ XLog where
  log x := if x < 0 then XLog.nan else XLog.val x.toNNRat
  logsum2 := XLog.logsum2
  logsum3 a b c := XLog.logsum2 (XLog.logsum2 a b) c
  logsum v := v.foldl XLog.logsum2 (XLog.val 0)
  calc_trans := ct

/-- The kernel `mixTrans` with its values in `XLog`. -/
def xTrans (k l : Nat) (d F aa : ℚ) : XLog := XLog.val (mixTrans k l d F aa).exp

/-- Emission log-likelihoods that are -infinity for every genotype of every site. -/
def xNinfData : DMat XLog := fun _ _ => XLog.val 0

/-- A prior table of regular values: weight `1/3` for every state and genotype. -/
def xPrior : Nat → Nat → Nat → XLog := fun _ _ _ => XLog.val (1 / 3)

/-- A prior table whose weight for genotype 0 is +infinity; the other weights are `1/3`. -/
def xPinfPrior : Nat → Nat → Nat → XLog :=
  fun _ _ g => if g = 0 then XLog.pinf else XLog.val (1 / 3)

/-- Sample buffer contents in `XLog`. -/
def xBuf : DMat XLog := fun _ _ => XLog.val 1

/-! ## Loop lemmas -/

theorem range_states : List.range N_STATES = [0, 1] := rfl

theorem rowStep_apply {L : Type} (g : Nat → Nat → L → L → L) (M : DMat L) (s : Nat)
    (hs : 1 ≤ s) (i j : Nat) :
    rowStep g M s i j = if i = s ∧ j < 2 then g s j (M (s - 1) 0) (M (s - 1) 1) else M i j := by
  have hne : s - 1 ≠ s := by omega
  simp only [rowStep, range_states, List.foldl_cons, List.foldl_nil, DMat.set]
  by_cases hi : i = s
  · subst hi
    by_cases h1 : j = 1
    · subst h1; simp [hne]
    · by_cases h0 : j = 0
      · subst h0; simp
      · have : ¬ j < 2 := by omega
        simp [h0, h1, this]
  · simp [hi]

theorem rowLoop_zero {L : Type} (g : Nat → Nat → L → L → L) (M : DMat L) :
    rowLoop g 0 M = M := rfl

theorem rowLoop_succ {L : Type} (g : Nat → Nat → L → L → L) (n : Nat) (M : DMat L) :
    rowLoop g (n + 1) M = rowStep g (rowLoop g n M) (n + 1) := by
  simp [rowLoop, List.range'_concat, List.foldl_append, Nat.add_comm]

/-- Frame of the ascending loop: row 0, the rows after `n` and the columns from 2 on keep
their contents. -/
theorem rowLoop_frame {L : Type} (g : Nat → Nat → L → L → L) (n : Nat) (M : DMat L)
    (i j : Nat) (h : i = 0 ∨ n < i ∨ 2 ≤ j) : rowLoop g n M i j = M i j := by
  induction n with
  | zero => rfl
  | succ n ih =>
    rw [rowLoop_succ, rowStep_apply g _ _ (by omega)]
    have hc : ¬ (i = n + 1 ∧ j < 2) := by omega
    rw [if_neg hc]
    exact ih (by omega)

/-- Recurrence of the ascending loop: every written cell holds `g` of the final row above. -/
theorem rowLoop_rec {L : Type} (g : Nat → Nat → L → L → L) (n : Nat) (M : DMat L)
    (s l : Nat) (hs : 1 ≤ s) (hn : s ≤ n) (hl : l < 2) :
    rowLoop g n M s l = g s l (rowLoop g n M (s - 1) 0) (rowLoop g n M (s - 1) 1) := by
  induction n with
  | zero => omega
  | succ n ih =>
    have hrow : ∀ i j, i ≤ n → rowLoop g (n + 1) M i j = rowLoop g n M i j := by
      intro i j hi
      rw [rowLoop_succ, rowStep_apply g _ _ (by omega)]
      have hc : ¬ (i = n + 1 ∧ j < 2) := by omega
      rw [if_neg hc]
    by_cases hsn : s = n + 1
    · subst hsn
      rw [hrow _ 0 (by omega), hrow _ 1 (by omega), rowLoop_succ,
        rowStep_apply g _ _ (by omega), if_pos ⟨rfl, hl⟩]
    · rw [hrow s l (by omega), hrow _ 0 (by omega), hrow _ 1 (by omega)]
      exact ih (by omega)

theorem colStep_apply {L : Type} (h : Nat → Nat → L → L → L) (M : DMat L) (s : Nat)
    (hs : 1 ≤ s) (i j : Nat) :
    colStep h M s i j = if i = s - 1 ∧ j < 2 then h s j (M s 0) (M s 1) else M i j := by
  have hne : s ≠ s - 1 := by omega
  simp only [colStep, range_states, List.foldl_cons, List.foldl_nil, DMat.set]
  by_cases hi : i = s - 1
  · subst hi
    by_cases h1 : j = 1
    · subst h1; simp [hne]
    · by_cases h0 : j = 0
      · subst h0; simp
      · have : ¬ j < 2 := by omega
        simp [h0, h1, this]
  · simp [hi]

theorem colLoop_zero {L : Type} (h : Nat → Nat → L → L → L) (M : DMat L) :
    colLoop h 0 M = M := rfl

theorem colLoop_succ {L : Type} (h : Nat → Nat → L → L → L) (n : Nat) (M : DMat L) :
    colLoop h (n + 1) M = colLoop h n (colStep h M (n + 1)) := by
  simp [colLoop, List.range'_concat, Nat.add_comm]

/-- Frame of the descending loop: the rows from `n` on and the columns from 2 on keep their
contents. -/
theorem colLoop_frame {L : Type} (h : Nat → Nat → L → L → L) (n : Nat) (M : DMat L)
    (i j : Nat) (hij : n ≤ i ∨ 2 ≤ j) : colLoop h n M i j = M i j := by
  induction n generalizing M with
  | zero => rfl
  | succ n ih =>
    rw [colLoop_succ, ih _ (by omega), colStep_apply h _ _ (by omega)]
    have hc : ¬ (i = n + 1 - 1 ∧ j < 2) := by omega
    rw [if_neg hc]

/-- Recurrence of the descending loop: every written cell holds `h` of the final row below. -/
theorem colLoop_rec {L : Type} (h : Nat → Nat → L → L → L) (n : Nat) (M : DMat L)
    (s k : Nat) (hs : 1 ≤ s) (hn : s ≤ n) (hk : k < 2) :
    colLoop h n M (s - 1) k = h s k (colLoop h n M s 0) (colLoop h n M s 1) := by
  induction n generalizing M with
  | zero => omega
  | succ n ih =>
    rw [colLoop_succ]
    by_cases hsn : s = n + 1
    · subst hsn
      rw [colLoop_frame h n _ _ _ (Or.inl (by omega)),
        colLoop_frame h n _ (n + 1) 0 (Or.inl (by omega)),
        colLoop_frame h n _ (n + 1) 1 (Or.inl (by omega)),
        colStep_apply h _ _ (by omega), colStep_apply h _ _ (by omega),
        colStep_apply h _ _ (by omega), if_pos ⟨rfl, hk⟩]
      have hc : ∀ j, ¬ (n + 1 = n + 1 - 1 ∧ j < 2) := by intro j; omega
      rw [if_neg (hc 0), if_neg (hc 1)]
    · exact ih _ (by omega)

/-- The labelling loop of `viterbi` (lines 151-152): sites `1..n` get their label, every
other entry of `path` keeps its contents. -/
theorem path_loop_apply (c : Nat → Nat) (n : Nat) (path : Nat → Nat) (s : Nat) :
    (List.range' 1 n).foldl (fun path s => Function.update path s (c s)) path s =
      if 1 ≤ s ∧ s ≤ n then c s else path s := by
  induction n with
  | zero =>
    have hc : ¬ (1 ≤ s ∧ s ≤ 0) := by omega
    rw [if_neg hc]
    rfl
  | succ n ih =>
    have h1n : 1 + 1 * n = n + 1 := by omega
    rw [List.range'_concat, List.foldl_append, h1n]
    simp only [List.foldl_cons, List.foldl_nil]
    by_cases hs : s = n + 1
    · rw [hs, Function.update_same, if_pos (by omega)]
    · rw [Function.update_noteq hs, ih]
      by_cases h1 : 1 ≤ s ∧ s ≤ n
      · rw [if_pos h1, if_pos (by omega)]
      · rw [if_neg h1, if_neg (by omega)]

theorem forward_loop_eq {R L : Type} [Add L] (P : Prims R L) (data : DMat L) (F aa : R)
    (prior : Nat → Nat → Nat → L) (pos_dist : Nat → R) (n : Nat) (M : DMat L) :
    (List.range' 1 n).foldl
      (fun Fw s => (List.range N_STATES).foldl (forward_cell P data F aa prior pos_dist s) Fw) M
      = rowLoop (fwVal P data F aa prior pos_dist) n M := rfl

theorem viterbi_loop_eq {R L : Type} [Add L] [Max L] (P : Prims R L) (data : DMat L)
    (F aa : R) (prior : Nat → Nat → Nat → L) (pos_dist : Nat → R) (n : Nat) (M : DMat L) :
    (List.range' 1 n).foldl
      (fun Vi s => (List.range N_STATES).foldl (viterbi_cell P data F aa prior pos_dist s) Vi) M
      = rowLoop (viVal P data F aa prior pos_dist) n M := rfl

theorem backward_loop_eq {R L : Type} [Add L] (P : Prims R L) (data : DMat L) (F aa : R)
    (prior : Nat → Nat → Nat → L) (pos_dist : Nat → R) (n : Nat) (M : DMat L) :
    (List.range' 1 n).reverse.foldl (backward_step P data F aa prior pos_dist) M
      = colLoop (bwVal P data F aa prior pos_dist) n M := rfl

/-! ## The rational model is exact -/

theorem LogQ.eq_iff (a b : LogQ) : a = b ↔ (a.exp : ℚ) = (b.exp : ℚ) := by
  cases a; cases b; simp

theorem LogQ.le_iff (a b : LogQ) : a ≤ b ↔ (a.exp : ℚ) ≤ (b.exp : ℚ) :=
  NNRat.coe_le_coe.symm

theorem LogQ.lt_iff (a b : LogQ) : a < b ↔ (a.exp : ℚ) < (b.exp : ℚ) :=
  NNRat.coe_lt_coe.symm

theorem LogQ.add_exp (a b : LogQ) : (a + b).exp = a.exp * b.exp := rfl

theorem LogQ.zero_exp : (0 : LogQ).exp = 1 := rfl

theorem LogQ.max_exp (a b : LogQ) : (max a b).exp = max a.exp b.exp := rfl

theorem coe_toNNRat_max (q : ℚ) : ((q.toNNRat : NNRat) : ℚ) = max q 0 := rfl

theorem qPrims_exact (ct : Nat → Nat → ℚ → ℚ → ℚ → LogQ) : Exact (qPrims ct) where
  add_comm a b := by rw [LogQ.eq_iff, LogQ.add_exp, LogQ.add_exp, mul_comm]
  add_assoc a b c := by simp only [LogQ.eq_iff, LogQ.add_exp, mul_assoc]
  zero_add a := by simp only [LogQ.eq_iff, LogQ.add_exp, LogQ.zero_exp, one_mul]
  logsum2_comm a b := by simp only [qPrims, LogQ.eq_iff, add_comm]
  logsum2_assoc a b c := by simp only [qPrims, LogQ.eq_iff, add_assoc]
  logsum2_add a b c := by simp only [qPrims, LogQ.eq_iff, LogQ.add_exp, add_mul]
  logsum3_eq a b c := rfl
  logsum_two a b := by simp [qPrims, LogQ.eq_iff]
  log_one := by simp [qPrims, LogQ.eq_iff, LogQ.zero_exp]
  logsum2_log x y hx hy := by simp only [qPrims, Rat.toNNRat_add hx hy]
  ninf_logsum2 a := by simp [qPrims]
  ninf_add a := by simp [qPrims, LogQ.eq_iff, LogQ.add_exp]

theorem qPrims_ordered (ct : Nat → Nat → ℚ → ℚ → ℚ → LogQ) : Ordered (qPrims ct) where
  le_refl a := le_refl a.exp
  le_trans a b c h1 h2 := (le_trans h1 h2 : a.exp ≤ c.exp)
  add_le_add a b c d h1 h2 := (mul_le_mul' h1 h2 : a.exp * c.exp ≤ b.exp * d.exp)
  logsum2_le_logsum2 a b c d h1 h2 := (add_le_add h1 h2 : a.exp + c.exp ≤ b.exp + d.exp)
  le_logsum2_left a b := (le_self_add : a.exp ≤ a.exp + b.exp)
  le_logsum2_right a b := (le_add_self : b.exp ≤ a.exp + b.exp)
  max_le a b c h1 h2 := (max_le h1 h2 : max a.exp b.exp ≤ c.exp)

/-! ## The extended reals are exact -/

theorem erealPrims_exact (ct : Nat → Nat → ℝ → ℝ → ℝ → EReal) : Exact (erealPrims ct) where
  add_comm a b := add_comm a b
  add_assoc a b c := add_assoc a b c
  zero_add a := zero_add a
  logsum2_comm a b := by simp only [erealPrims, add_comm]
  logsum2_assoc a b c := by simp only [erealPrims, ENNReal.exp_log, add_assoc]
  logsum2_add a b c := by
    simp only [erealPrims, EReal.exp_add, ← add_mul, ENNReal.log_mul_add, EReal.log_exp]
  logsum3_eq a b c := by simp only [erealPrims, ENNReal.exp_log]
  logsum_two a b := by simp [erealPrims]
  log_one := by simp [erealPrims]
  logsum2_log x y hx hy := by
    simp only [erealPrims, ENNReal.exp_log, ENNReal.ofReal_add hx hy]
  ninf_logsum2 a := by simp [erealPrims]
  ninf_add a := by simp [erealPrims]

theorem erealPrims_ordered (ct : Nat → Nat → ℝ → ℝ → ℝ → EReal) :
    Ordered (erealPrims ct) where
  le_refl a := le_refl a
  le_trans a b c h1 h2 := le_trans h1 h2
  add_le_add a b c d h1 h2 := add_le_add h1 h2
  logsum2_le_logsum2 a b c d h1 h2 := by
    simp only [erealPrims, ENNReal.log_le_log_iff]
    exact add_le_add (EReal.exp_le_exp_iff.mpr h1) (EReal.exp_le_exp_iff.mpr h2)
  le_logsum2_left a b := by
    simp only [erealPrims]
    calc a = ENNReal.log (EReal.exp a) := (EReal.log_exp a).symm
      _ ≤ _ := ENNReal.log_le_log_iff.mpr le_self_add
  le_logsum2_right a b := by
    simp only [erealPrims]
    calc b = ENNReal.log (EReal.exp b) := (EReal.log_exp b).symm
      _ ≤ _ := ENNReal.log_le_log_iff.mpr le_add_self
  max_le a b c h1 h2 := max_le h1 h2

/-! ## The engines as loops -/

theorem forward_fst {R L : Type} [One R] [Sub R] [Add L] (P : Prims R L) (Fw data : DMat L)
    (F aa : R) (prior : Nat → Nat → Nat → L) (path : Nat → Nat) (pos_dist : Nat → R)
    (length : Nat) :
    (forward P Fw data F aa prior path pos_dist length).1 =
      rowLoop (fwVal P data F aa prior pos_dist) length
        ((Fw.set 0 0 (P.log (1 - F))).set 0 1 (P.log F)) := rfl

theorem forward_snd {R L : Type} [One R] [Sub R] [Add L] (P : Prims R L) (Fw data : DMat L)
    (F aa : R) (prior : Nat → Nat → Nat → L) (path : Nat → Nat) (pos_dist : Nat → R)
    (length : Nat) :
    (forward P Fw data F aa prior path pos_dist length).2 =
      P.logsum [(forward P Fw data F aa prior path pos_dist length).1 length 0,
        (forward P Fw data F aa prior path pos_dist length).1 length 1] := rfl

theorem viterbi_fst {R L : Type} [One R] [Sub R] [Add L] [Max L] [LT L]
    [DecidableRel (fun a b : L => a < b)] (P : Prims R L) (Vi data : DMat L)
    (F aa : R) (prior : Nat → Nat → Nat → L) (path : Nat → Nat) (pos_dist : Nat → R)
    (length : Nat) :
    (viterbi P Vi data F aa prior path pos_dist length).1 =
      rowLoop (viVal P data F aa prior pos_dist) length
        ((Vi.set 0 0 (P.log (1 - F))).set 0 1 (P.log F)) := rfl

theorem viterbi_path {R L : Type} [One R] [Sub R] [Add L] [Max L] [LT L]
    [DecidableRel (fun a b : L => a < b)] (P : Prims R L) (Vi data : DMat L)
    (F aa : R) (prior : Nat → Nat → Nat → L) (path : Nat → Nat) (pos_dist : Nat → R)
    (length s : Nat) :
    (viterbi P Vi data F aa prior path pos_dist length).2.1 s =
      if 1 ≤ s ∧ s ≤ length then
        (if (viterbi P Vi data F aa prior path pos_dist length).1 s 0 >
            (viterbi P Vi data F aa prior path pos_dist length).1 s 1 then 0 else 1)
      else path s :=
  path_loop_apply
    (fun s => if (viterbi P Vi data F aa prior path pos_dist length).1 s 0 >
      (viterbi P Vi data F aa prior path pos_dist length).1 s 1 then 0 else 1) length path s

theorem viterbi_snd {R L : Type} [One R] [Sub R] [Add L] [Max L] [LT L]
    [DecidableRel (fun a b : L => a < b)] (P : Prims R L) (Vi data : DMat L)
    (F aa : R) (prior : Nat → Nat → Nat → L) (path : Nat → Nat) (pos_dist : Nat → R)
    (length : Nat) :
    (viterbi P Vi data F aa prior path pos_dist length).2.2 =
      max ((viterbi P Vi data F aa prior path pos_dist length).1 length 0)
        ((viterbi P Vi data F aa prior path pos_dist length).1 length 1) := rfl

/-- Row 0 after the two boundary assignments of `forward` and `viterbi`. -/
theorem init_row {L : Type} (M : DMat L) (a b : L) :
    ((M.set 0 0 a).set 0 1 b) 0 0 = a ∧ ((M.set 0 0 a).set 0 1 b) 0 1 = b ∧
      ∀ i j, i ≠ 0 → ((M.set 0 0 a).set 0 1 b) i j = M i j := by
  refine ⟨by simp [DMat.set], by simp [DMat.set], ?_⟩
  intro i j hi
  simp [DMat.set, hi]

/-- The cells of rows `0..n` and columns 0, 1 after the ascending loop depend on row 0 of
the initial matrix only. -/
theorem rowLoop_ext {L : Type} (g : Nat → Nat → L → L → L) (n : Nat) (M N : DMat L)
    (h0 : M 0 0 = N 0 0) (h1 : M 0 1 = N 0 1) (s : Nat) :
    s ≤ n → ∀ l, l < 2 → rowLoop g n M s l = rowLoop g n N s l := by
  induction s with
  | zero =>
    intro _ l hl
    rw [rowLoop_frame g n M 0 l (Or.inl rfl), rowLoop_frame g n N 0 l (Or.inl rfl)]
    have hl01 : l = 0 ∨ l = 1 := by omega
    rcases hl01 with rfl | rfl
    · exact h0
    · exact h1
  | succ s ih =>
    intro hs l hl
    rw [rowLoop_rec g n M (s + 1) l (by omega) hs hl,
      rowLoop_rec g n N (s + 1) l (by omega) hs hl]
    simp only [Nat.add_sub_cancel]
    rw [ih (by omega) 0 (by omega), ih (by omega) 1 (by omega)]

/-- The value returned by `forward` does not depend on the initial contents of `Fw`. -/
theorem forward_snd_buf {R L : Type} [One R] [Sub R] [Add L] (P : Prims R L)
    (Fw Fw2 data : DMat L) (F aa : R) (prior : Nat → Nat → Nat → L) (path path2 : Nat → Nat)
    (pos_dist : Nat → R) (length : Nat) :
    (forward P Fw data F aa prior path pos_dist length).2 =
      (forward P Fw2 data F aa prior path2 pos_dist length).2 := by
  have hrow : ∀ l, l < 2 →
      (forward P Fw data F aa prior path pos_dist length).1 length l =
        (forward P Fw2 data F aa prior path2 pos_dist length).1 length l := by
    intro l hl
    rw [forward_fst, forward_fst]
    exact rowLoop_ext _ length _ _ ((init_row Fw _ _).1.trans (init_row Fw2 _ _).1.symm)
      ((init_row Fw _ _).2.1.trans (init_row Fw2 _ _).2.1.symm) length (le_refl _) l hl
  rw [forward_snd, forward_snd, hrow 0 (by omega), hrow 1 (by omega)]

/-- The matrix `backward` leaves: the descending loop, then the boundary folded into row 0. -/
theorem backward_fst_apply {R L : Type} [One R] [Sub R] [Add L] (P : Prims R L)
    (Bw data : DMat L) (F aa : R) (prior : Nat → Nat → Nat → L) (path : Nat → Nat)
    (pos_dist : Nat → R) (length i j : Nat) :
    (backward P Bw data F aa prior path pos_dist length).1 i j =
      if i = 0 ∧ j = 1 then
        colLoop (bwVal P data F aa prior pos_dist) length
          ((Bw.set length 0 (P.log 1)).set length 1 (P.log 1)) 0 1 + P.log F
      else if i = 0 ∧ j = 0 then
        colLoop (bwVal P data F aa prior pos_dist) length
          ((Bw.set length 0 (P.log 1)).set length 1 (P.log 1)) 0 0 + P.log (1 - F)
      else
        colLoop (bwVal P data F aa prior pos_dist) length
          ((Bw.set length 0 (P.log 1)).set length 1 (P.log 1)) i j := by
  have hb : (backward P Bw data F aa prior path pos_dist length).1 =
      DMat.set (DMat.set (colLoop (bwVal P data F aa prior pos_dist) length
          ((Bw.set length 0 (P.log 1)).set length 1 (P.log 1))) 0 0
        (colLoop (bwVal P data F aa prior pos_dist) length
          ((Bw.set length 0 (P.log 1)).set length 1 (P.log 1)) 0 0 + P.log (1 - F))) 0 1
        (DMat.set (colLoop (bwVal P data F aa prior pos_dist) length
          ((Bw.set length 0 (P.log 1)).set length 1 (P.log 1))) 0 0
          (colLoop (bwVal P data F aa prior pos_dist) length
            ((Bw.set length 0 (P.log 1)).set length 1 (P.log 1)) 0 0 + P.log (1 - F)) 0 1 +
          P.log F) := rfl
  rw [hb]
  generalize colLoop (bwVal P data F aa prior pos_dist) length
    ((Bw.set length 0 (P.log 1)).set length 1 (P.log 1)) = C
  simp only [DMat.set]
  by_cases h1 : i = 0 ∧ j = 1
  · simp [h1]
  · simp only [if_neg h1]

theorem backward_snd {R L : Type} [One R] [Sub R] [Add L] (P : Prims R L) (Bw data : DMat L)
    (F aa : R) (prior : Nat → Nat → Nat → L) (path : Nat → Nat) (pos_dist : Nat → R)
    (length : Nat) :
    (backward P Bw data F aa prior path pos_dist length).2 =
      P.logsum [(backward P Bw data F aa prior path pos_dist length).1 0 0,
        (backward P Bw data F aa prior path pos_dist length).1 0 1] := rfl

/-- The last row after the two boundary assignments of `backward`. -/
theorem last_row {L : Type} (M : DMat L) (n : Nat) (a : L) (j : Nat) (hj : j < 2) :
    ((M.set n 0 a).set n 1 a) n j = a := by
  have hj01 : j = 0 ∨ j = 1 := by omega
  rcases hj01 with rfl | rfl <;> simp [DMat.set]

/-- Row 0 and the recurrence of the matrix `forward` leaves. -/
theorem forward_rec {R L : Type} [One R] [Sub R] [Add L] (P : Prims R L)
    (Fw data : DMat L) (F aa : R) (prior : Nat → Nat → Nat → L) (path : Nat → Nat)
    (pos_dist : Nat → R) (length : Nat) :
    (forward P Fw data F aa prior path pos_dist length).1 0 0 = P.log (1 - F) ∧
    (forward P Fw data F aa prior path pos_dist length).1 0 1 = P.log F ∧
    (∀ s l, 1 ≤ s → s ≤ length → l < 2 →
      (forward P Fw data F aa prior path pos_dist length).1 s l =
        fwVal P data F aa prior pos_dist s l
          ((forward P Fw data F aa prior path pos_dist length).1 (s - 1) 0)
          ((forward P Fw data F aa prior path pos_dist length).1 (s - 1) 1)) := by
  rw [forward_fst]
  refine ⟨?_, ?_, ?_⟩
  · rw [rowLoop_frame _ _ _ 0 0 (Or.inl rfl)]
    exact (init_row Fw _ _).1
  · rw [rowLoop_frame _ _ _ 0 1 (Or.inl rfl)]
    exact (init_row Fw _ _).2.1
  · intro s l hs hn hl
    exact rowLoop_rec (fwVal P data F aa prior pos_dist) length _ s l hs hn hl

/-- A sample run of `forward` over the rational model: the total likelihood of the sample
sequence of length 2 is `3109 / 30720`. -/
theorem demo_forward_value :
    (forward (qPrims mixTrans) demoBuf demoData (1 / 4) (1 / 2) demoPrior (fun _ => 0)
      demoDist 2).2 = ⟨3109 / 30720⟩ := by
  have h := forward_rec (qPrims mixTrans) demoBuf demoData (1 / 4) (1 / 2) demoPrior
    (fun _ => 0) demoDist 2
  have h10 := h.2.2 1 0 (by decide) (by decide) (by decide)
  have h11 := h.2.2 1 1 (by decide) (by decide) (by decide)
  have h20 := h.2.2 2 0 (by decide) (by decide) (by decide)
  have h21 := h.2.2 2 1 (by decide) (by decide) (by decide)
  simp only [Nat.sub_self, Nat.reduceSub] at h10 h11 h20 h21
  rw [h.1, h.2.1] at h10 h11
  rw [h10, h11] at h20 h21
  rw [forward_snd, h20, h21]
  simp [fwVal, qPrims, mixTrans, demoData, demoPrior, LogQ.eq_iff, LogQ.add_exp,
    coe_toNNRat_max]
  norm_num

/-! ## Algebra of exact arithmetic -/

/-- Viterbi below forward, cell by cell, for two ascending loops started on the same row 0. -/
theorem viterbi_le_forward_loop {R L : Type} [Add L] [LE L] [Max L] (P : Prims R L)
    (hO : Ordered P) (data : DMat L) (F aa : R) (prior : Nat → Nat → Nat → L)
    (pos_dist : Nat → R) (n : Nat) (V M : DMat L) (h0 : V 0 0 = M 0 0) (h1 : V 0 1 = M 0 1)
    (s : Nat) :
    s ≤ n → ∀ l, l < 2 →
      rowLoop (viVal P data F aa prior pos_dist) n V s l ≤
        rowLoop (fwVal P data F aa prior pos_dist) n M s l := by
  induction s with
  | zero =>
    intro _ l hl
    rw [rowLoop_frame _ n V 0 l (Or.inl rfl), rowLoop_frame _ n M 0 l (Or.inl rfl)]
    have hl01 : l = 0 ∨ l = 1 := by omega
    rcases hl01 with rfl | rfl
    · rw [h0]; exact hO.le_refl _
    · rw [h1]; exact hO.le_refl _
  | succ s ih =>
    intro hs l hl
    rw [rowLoop_rec _ n V (s + 1) l (by omega) hs hl,
      rowLoop_rec _ n M (s + 1) l (by omega) hs hl]
    simp only [Nat.add_sub_cancel]
    have i0 := ih (by omega) 0 (by omega)
    have i1 := ih (by omega) 1 (by omega)
    refine hO.add_le_add _ _ _ _ (hO.max_le _ _ _ ?_ ?_) (hO.le_refl _)
    · exact hO.le_trans _ _ _ (hO.add_le_add _ _ _ _ i0 (hO.le_refl _))
        (hO.le_logsum2_left _ _)
    · exact hO.le_trans _ _ _ (hO.add_le_add _ _ _ _ i1 (hO.le_refl _))
        (hO.le_logsum2_right _ _)

/-- In exact arithmetic -infinity is absorbing on the right as well. -/
theorem Exact.add_ninf {R L : Type} [LinearOrderedField R] [Add L] [Zero L] {P : Prims R L}
    (hE : Exact P) (a : L) : a + P.log 0 = P.log 0 := by
  rw [hE.add_comm, hE.ninf_add]

/-- In exact arithmetic -infinity is the unit of `logsum2` on the right as well. -/
theorem Exact.logsum2_ninf {R L : Type} [LinearOrderedField R] [Add L] [Zero L]
    {P : Prims R L} (hE : Exact P) (a : L) : P.logsum2 a (P.log 0) = a := by
  rw [hE.logsum2_comm, hE.ninf_logsum2]

/-- In exact arithmetic `0.0` is the unit of `+` on the right as well. -/
theorem Exact.add_zero {R L : Type} [LinearOrderedField R] [Add L] [Zero L] {P : Prims R L}
    (hE : Exact P) (a : L) : a + 0 = a := by
  rw [hE.add_comm, hE.zero_add]

/-- In exact arithmetic `+` distributes over `logsum2` from the left as well. -/
theorem Exact.add_logsum2 {R L : Type} [LinearOrderedField R] [Add L] [Zero L]
    {P : Prims R L} (hE : Exact P) (a b c : L) :
    c + P.logsum2 a b = P.logsum2 (c + a) (c + b) := by
  rw [hE.add_comm, hE.logsum2_add, hE.add_comm a c, hE.add_comm b c]

/-- The algebra of one forward-backward step: summing over the state of site `s - 1` after
the backward step equals summing over the state of site `s` after the forward step. -/
theorem fb_step {R L : Type} [LinearOrderedField R] [Add L] [Zero L] {P : Prims R L}
    (hE : Exact P) (a0 a1 t00 t01 t10 t11 e0 e1 b0 b1 : L) :
    P.logsum2 (a0 + P.logsum2 (t00 + e0 + b0) (t01 + e1 + b1))
        (a1 + P.logsum2 (t10 + e0 + b0) (t11 + e1 + b1)) =
      P.logsum2 (P.logsum2 (a0 + t00) (a1 + t10) + e0 + b0)
        (P.logsum2 (a0 + t01) (a1 + t11) + e1 + b1) := by
  haveI : Std.Commutative (fun a b : L => a + b) := ⟨hE.add_comm⟩
  haveI : Std.Associative (fun a b : L => a + b) := ⟨hE.add_assoc⟩
  haveI : Std.Commutative P.logsum2 := ⟨hE.logsum2_comm⟩
  haveI : Std.Associative P.logsum2 := ⟨hE.logsum2_assoc⟩
  simp only [hE.add_logsum2, hE.logsum2_add, hE.add_assoc]
  ac_rfl

/-- The forward-backward product summed over the two states is the same at every site. -/
theorem fb_invariant {R L : Type} [LinearOrderedField R] [Add L] [Zero L] (P : Prims R L)
    (hE : Exact P) (data : DMat L) (F aa : R) (prior : Nat → Nat → Nat → L)
    (pos_dist : Nat → R) (n : Nat) (A B : DMat L)
    (hA : ∀ s l, 1 ≤ s → s ≤ n → l < 2 →
      A s l = fwVal P data F aa prior pos_dist s l (A (s - 1) 0) (A (s - 1) 1))
    (hB : ∀ s k, 1 ≤ s → s ≤ n → k < 2 →
      B (s - 1) k = bwVal P data F aa prior pos_dist s k (B s 0) (B s 1))
    (s : Nat) (hs : s ≤ n) :
    P.logsum2 (A 0 0 + B 0 0) (A 0 1 + B 0 1) = P.logsum2 (A s 0 + B s 0) (A s 1 + B s 1) := by
  induction s with
  | zero => rfl
  | succ s ih =>
    rw [ih (by omega)]
    have hb0 := hB (s + 1) 0 (by omega) hs (by omega)
    have hb1 := hB (s + 1) 1 (by omega) hs (by omega)
    have ha0 := hA (s + 1) 0 (by omega) hs (by omega)
    have ha1 := hA (s + 1) 1 (by omega) hs (by omega)
    simp only [Nat.add_sub_cancel] at hb0 hb1 ha0 ha1
    rw [hb0, hb1, ha0, ha1]
    exact fb_step hE _ _ _ _ _ _ _ _ _ _

/-! ## Frames and buffer independence -/

/-- The two boundary assignments to row 0 leave every other row and the columns from 2 on
as they were. -/
theorem init_row_frame {L : Type} (M : DMat L) (a b : L) (i j : Nat) (h : i ≠ 0 ∨ 2 ≤ j) :
    ((M.set 0 0 a).set 0 1 b) i j = M i j := by
  have h1 : ¬ (i = 0 ∧ j = 1) := by omega
  have h0 : ¬ (i = 0 ∧ j = 0) := by omega
  simp only [DMat.set, if_neg h1, if_neg h0]

/-- The two boundary assignments to row `n` leave every other row and the columns from 2 on
as they were. -/
theorem last_row_frame {L : Type} (M : DMat L) (n : Nat) (a b : L) (i j : Nat)
    (h : i ≠ n ∨ 2 ≤ j) : ((M.set n 0 a).set n 1 b) i j = M i j := by
  have h1 : ¬ (i = n ∧ j = 1) := by omega
  have h0 : ¬ (i = n ∧ j = 0) := by omega
  simp only [DMat.set, if_neg h1, if_neg h0]

/-- Frame of `forward`: the rows after `length` and the columns from 2 on keep their
contents. -/
theorem forward_frame {R L : Type} [One R] [Sub R] [Add L] (P : Prims R L)
    (Fw data : DMat L) (F aa : R) (prior : Nat → Nat → Nat → L) (path : Nat → Nat)
    (pos_dist : Nat → R) (length i j : Nat) (h : length < i ∨ 2 ≤ j) :
    (forward P Fw data F aa prior path pos_dist length).1 i j = Fw i j := by
  rw [forward_fst, rowLoop_frame _ _ _ i j (by omega), init_row_frame _ _ _ _ _ (by omega)]

/-- Frame of `viterbi` on the matrix: the rows after `length` and the columns from 2 on keep
their contents. -/
theorem viterbi_frame {R L : Type} [One R] [Sub R] [Add L] [Max L] [LT L]
    [DecidableRel (fun a b : L => a < b)] (P : Prims R L) (Vi data : DMat L)
    (F aa : R) (prior : Nat → Nat → Nat → L) (path : Nat → Nat) (pos_dist : Nat → R)
    (length i j : Nat) (h : length < i ∨ 2 ≤ j) :
    (viterbi P Vi data F aa prior path pos_dist length).1 i j = Vi i j := by
  rw [viterbi_fst, rowLoop_frame _ _ _ i j (by omega), init_row_frame _ _ _ _ _ (by omega)]

/-- Frame of `backward`: the rows after `length` and the columns from 2 on keep their
contents. -/
theorem backward_frame {R L : Type} [One R] [Sub R] [Add L] (P : Prims R L)
    (Bw data : DMat L) (F aa : R) (prior : Nat → Nat → Nat → L) (path : Nat → Nat)
    (pos_dist : Nat → R) (length i j : Nat) (h : length < i ∨ 2 ≤ j) :
    (backward P Bw data F aa prior path pos_dist length).1 i j = Bw i j := by
  rw [backward_fst_apply, if_neg (by omega), if_neg (by omega),
    colLoop_frame _ _ _ i j (by omega), last_row_frame _ _ _ _ _ _ (by omega)]

/-- The cells of rows `0..n` and columns 0, 1 after the descending loop depend on row `n`
of the initial matrix only. -/
theorem colLoop_ext {L : Type} (h : Nat → Nat → L → L → L) (n : Nat) (M N : DMat L)
    (h0 : M n 0 = N n 0) (h1 : M n 1 = N n 1) (d : Nat) :
    ∀ s, s + d = n → ∀ k, k < 2 → colLoop h n M s k = colLoop h n N s k := by
  induction d with
  | zero =>
    intro s hs k hk
    have hsn : s = n := by omega
    subst hsn
    rw [colLoop_frame h s M s k (Or.inl (le_refl _)),
      colLoop_frame h s N s k (Or.inl (le_refl _))]
    have hk01 : k = 0 ∨ k = 1 := by omega
    rcases hk01 with rfl | rfl
    · exact h0
    · exact h1
  | succ d ih =>
    intro s hs k hk
    have e1 := colLoop_rec h n M (s + 1) k (by omega) (by omega) hk
    have e2 := colLoop_rec h n N (s + 1) k (by omega) (by omega) hk
    simp only [Nat.add_sub_cancel] at e1 e2
    rw [e1, e2, ih (s + 1) (by omega) 0 (by omega), ih (s + 1) (by omega) 1 (by omega)]

/-- The cells of rows `0..length` and columns 0, 1 that `forward` leaves do not depend on
the initial contents of `Fw`. -/
theorem forward_fst_buf {R L : Type} [One R] [Sub R] [Add L] (P : Prims R L)
    (Fw Fw2 data : DMat L) (F aa : R) (prior : Nat → Nat → Nat → L) (path path2 : Nat → Nat)
    (pos_dist : Nat → R) (length s l : Nat) (hs : s ≤ length) (hl : l < 2) :
    (forward P Fw data F aa prior path pos_dist length).1 s l =
      (forward P Fw2 data F aa prior path2 pos_dist length).1 s l := by
  rw [forward_fst, forward_fst]
  exact rowLoop_ext _ length _ _ ((init_row Fw _ _).1.trans (init_row Fw2 _ _).1.symm)
    ((init_row Fw _ _).2.1.trans (init_row Fw2 _ _).2.1.symm) s hs l hl

/-- The cells of rows `0..length` and columns 0, 1 that `viterbi` leaves do not depend on
the initial contents of `Vi` and `path`. -/
theorem viterbi_fst_buf {R L : Type} [One R] [Sub R] [Add L] [Max L] [LT L]
    [DecidableRel (fun a b : L => a < b)] (P : Prims R L) (Vi Vi2 data : DMat L)
    (F aa : R) (prior : Nat → Nat → Nat → L) (path path2 : Nat → Nat) (pos_dist : Nat → R)
    (length s l : Nat) (hs : s ≤ length) (hl : l < 2) :
    (viterbi P Vi data F aa prior path pos_dist length).1 s l =
      (viterbi P Vi2 data F aa prior path2 pos_dist length).1 s l := by
  rw [viterbi_fst, viterbi_fst]
  exact rowLoop_ext _ length _ _ ((init_row Vi _ _).1.trans (init_row Vi2 _ _).1.symm)
    ((init_row Vi _ _).2.1.trans (init_row Vi2 _ _).2.1.symm) s hs l hl

/-- The cells of rows `0..length` and columns 0, 1 that `backward` leaves do not depend on
the initial contents of `Bw`. -/
theorem backward_fst_buf {R L : Type} [One R] [Sub R] [Add L] (P : Prims R L)
    (Bw Bw2 data : DMat L) (F aa : R) (prior : Nat → Nat → Nat → L) (path path2 : Nat → Nat)
    (pos_dist : Nat → R) (length s l : Nat) (hs : s ≤ length) (hl : l < 2) :
    (backward P Bw data F aa prior path pos_dist length).1 s l =
      (backward P Bw2 data F aa prior path2 pos_dist length).1 s l := by
  have hloop : ∀ i k, i ≤ length → k < 2 →
      colLoop (bwVal P data F aa prior pos_dist) length
        ((Bw.set length 0 (P.log 1)).set length 1 (P.log 1)) i k =
      colLoop (bwVal P data F aa prior pos_dist) length
        ((Bw2.set length 0 (P.log 1)).set length 1 (P.log 1)) i k := by
    intro i k hi hk
    exact colLoop_ext _ length _ _
      ((last_row Bw length _ 0 (by omega)).trans (last_row Bw2 length _ 0 (by omega)).symm)
      ((last_row Bw length _ 1 (by omega)).trans (last_row Bw2 length _ 1 (by omega)).symm)
      (length - i) i (by omega) k hk
  rw [backward_fst_apply, backward_fst_apply, hloop 0 1 (by omega) (by omega),
    hloop 0 0 (by omega) (by omega), hloop s l hs hl]

/-- In exact arithmetic the forward-backward product summed over the two states of any
site `s` in `0..length` is the value `forward` returns; the backward matrix is taken before
the boundary is folded into row 0. -/
theorem fb_total {R L : Type} [LinearOrderedField R] [Add L] [Zero L] (P : Prims R L)
    (hE : Exact P) (Fw Bw data : DMat L) (F aa : R) (prior : Nat → Nat → Nat → L)
    (path : Nat → Nat) (pos_dist : Nat → R) (length s : Nat) (hs : s ≤ length) :
    P.logsum2
      ((forward P Fw data F aa prior path pos_dist length).1 s 0 +
        colLoop (bwVal P data F aa prior pos_dist) length
          ((Bw.set length 0 (P.log 1)).set length 1 (P.log 1)) s 0)
      ((forward P Fw data F aa prior path pos_dist length).1 s 1 +
        colLoop (bwVal P data F aa prior pos_dist) length
          ((Bw.set length 0 (P.log 1)).set length 1 (P.log 1)) s 1) =
      (forward P Fw data F aa prior path pos_dist length).2 := by
  have hrec := forward_rec P Fw data F aa prior path pos_dist length
  have hinv := fb_invariant P hE data F aa prior pos_dist length
    (forward P Fw data F aa prior path pos_dist length).1
    (colLoop (bwVal P data F aa prior pos_dist) length
      ((Bw.set length 0 (P.log 1)).set length 1 (P.log 1)))
    hrec.2.2
    (fun s k h1 hn hk => colLoop_rec (bwVal P data F aa prior pos_dist) length _ s k h1 hn hk)
  have hlast : ∀ j, j < 2 →
      colLoop (bwVal P data F aa prior pos_dist) length
        ((Bw.set length 0 (P.log 1)).set length 1 (P.log 1)) length j = 0 := by
    intro j hj
    rw [colLoop_frame _ _ _ _ _ (Or.inl (le_refl _)), last_row _ _ _ _ hj, hE.log_one]
  rw [← hinv s hs, hinv length (le_refl _), hlast 0 (by omega), hlast 1 (by omega),
    hE.add_zero, hE.add_zero, forward_snd, hE.logsum_two]

/-! ## State sequences -/

/-- A sequence of `seqsEnding n l` has `n + 1` entries and its entry `n` is `l`. -/
theorem seqsEnding_spec (n l : Nat) (z : List Nat) (hz : z ∈ seqsEnding n l) :
    z.length = n + 1 ∧ z.getD n 0 = l := by
  induction n generalizing l z with
  | zero =>
    simp only [seqsEnding, List.mem_singleton] at hz
    subst hz
    exact ⟨rfl, rfl⟩
  | succ n ih =>
    simp only [seqsEnding, List.mem_map, List.mem_append] at hz
    obtain ⟨y, hy, rfl⟩ := hz
    have hlen : y.length = n + 1 := by
      rcases hy with hy | hy
      · exact (ih 0 y hy).1
      · exact (ih 1 y hy).1
    refine ⟨by simp [hlen], ?_⟩
    rw [List.getD_append_right _ _ _ _ (by omega), hlen, Nat.sub_self]
    rfl

/-- The sequences ending in `l` are the lists of `n` states 0 or 1 followed by `l`. -/
theorem mem_seqsEnding (n l : Nat) (z : List Nat) :
    z ∈ seqsEnding n l ↔ ∃ y : List Nat, y.length = n ∧ (∀ x ∈ y, x < 2) ∧ z = y ++ [l] := by
  induction n generalizing l z with
  | zero =>
    simp only [seqsEnding, List.mem_singleton]
    constructor
    · rintro rfl
      exact ⟨[], rfl, by simp, rfl⟩
    · rintro ⟨y, hy, -, rfl⟩
      rw [List.length_eq_zero] at hy
      subst hy
      rfl
  | succ n ih =>
    simp only [seqsEnding, List.mem_map, List.mem_append]
    constructor
    · rintro ⟨w, hw, rfl⟩
      rcases hw with hw | hw
      · obtain ⟨y, hy, hst, rfl⟩ := (ih 0 w).mp hw
        refine ⟨y ++ [0], by simp [hy], ?_, rfl⟩
        intro x hx
        rw [List.mem_append, List.mem_singleton] at hx
        rcases hx with hx | hx
        · exact hst x hx
        · omega
      · obtain ⟨y, hy, hst, rfl⟩ := (ih 1 w).mp hw
        refine ⟨y ++ [1], by simp [hy], ?_, rfl⟩
        intro x hx
        rw [List.mem_append, List.mem_singleton] at hx
        rcases hx with hx | hx
        · exact hst x hx
        · omega
    · rintro ⟨w, hw, hst, rfl⟩
      have hne : w ≠ [] := by
        intro h
        rw [h] at hw
        simp at hw
      have hdec : w = w.dropLast ++ [w.getLast hne] := (List.dropLast_append_getLast hne).symm
      have hk : w.getLast hne < 2 := hst _ (List.getLast_mem hne)
      have hdl : w.dropLast.length = n := by simp [hw]
      have hdst : ∀ x ∈ w.dropLast, x < 2 := fun x hx => hst x (List.mem_of_mem_dropLast hx)
      refine ⟨w, ?_, rfl⟩
      have hk01 : w.getLast hne = 0 ∨ w.getLast hne = 1 := by omega
      rcases hk01 with h0 | h1
      · left
        rw [ih 0 w]
        exact ⟨w.dropLast, hdl, hdst, by rw [← h0]; exact hdec⟩
      · right
        rw [ih 1 w]
        exact ⟨w.dropLast, hdl, hdst, by rw [← h1]; exact hdec⟩

/-- The enumeration `allSeqs n` holds exactly the lists of `n + 1` states 0 or 1. -/
theorem mem_allSeqs (n : Nat) (z : List Nat) :
    z ∈ allSeqs n ↔ z.length = n + 1 ∧ ∀ x ∈ z, x < 2 := by
  simp only [allSeqs, List.mem_append, mem_seqsEnding]
  constructor
  · rintro (⟨y, hy, hst, rfl⟩ | ⟨y, hy, hst, rfl⟩)
    · refine ⟨by simp [hy], ?_⟩
      intro x hx
      rw [List.mem_append, List.mem_singleton] at hx
      rcases hx with hx | hx
      · exact hst x hx
      · omega
    · refine ⟨by simp [hy], ?_⟩
      intro x hx
      rw [List.mem_append, List.mem_singleton] at hx
      rcases hx with hx | hx
      · exact hst x hx
      · omega
  · rintro ⟨hlen, hst⟩
    have hne : z ≠ [] := by
      intro h
      rw [h] at hlen
      simp at hlen
    have hdec : z = z.dropLast ++ [z.getLast hne] := (List.dropLast_append_getLast hne).symm
    have hk : z.getLast hne < 2 := hst _ (List.getLast_mem hne)
    have hdl : z.dropLast.length = n := by simp [hlen]
    have hdst : ∀ x ∈ z.dropLast, x < 2 := fun x hx => hst x (List.mem_of_mem_dropLast hx)
    have hk01 : z.getLast hne = 0 ∨ z.getLast hne = 1 := by omega
    rcases hk01 with h0 | h1
    · exact Or.inl ⟨z.dropLast, hdl, hdst, by rw [← h0]; exact hdec⟩
    · exact Or.inr ⟨z.dropLast, hdl, hdst, by rw [← h1]; exact hdec⟩

theorem seqsEnding_length (n l : Nat) : (seqsEnding n l).length = 2 ^ n := by
  induction n generalizing l with
  | zero => rfl
  | succ n ih =>
    simp only [seqsEnding, List.length_map, List.length_append, ih]
    ring

/-- The enumeration `allSeqs n` has `2 ^ (n + 1)` entries. -/
theorem allSeqs_length (n : Nat) : (allSeqs n).length = 2 ^ (n + 1) := by
  simp only [allSeqs, List.length_append, seqsEnding_length]
  ring

theorem seqsEnding_disjoint (n : Nat) : List.Disjoint (seqsEnding n 0) (seqsEnding n 1) := by
  intro z h0 h1
  have e0 := (seqsEnding_spec n 0 z h0).2
  have e1 := (seqsEnding_spec n 1 z h1).2
  omega

theorem seqsEnding_nodup (n l : Nat) : (seqsEnding n l).Nodup := by
  induction n generalizing l with
  | zero => simp [seqsEnding]
  | succ n ih =>
    simp only [seqsEnding]
    refine List.Nodup.map ?_ (List.Nodup.append (ih 0) (ih 1) (seqsEnding_disjoint n))
    intro a b hab
    exact List.append_cancel_right hab

/-- The enumeration `allSeqs n` lists no sequence twice. -/
theorem allSeqs_nodup (n : Nat) : (allSeqs n).Nodup :=
  List.Nodup.append (seqsEnding_nodup n 0) (seqsEnding_nodup n 1) (seqsEnding_disjoint n)

/-- Entries below the length of `z` are not affected by appending a state. -/
theorem getD_snoc_lt (z : List Nat) (l s : Nat) (h : s < z.length) :
    (z ++ [l]).getD s 0 = z.getD s 0 :=
  List.getD_append z [l] 0 s h

/-- The entry at the length of `z` of `z` followed by `l` is `l`. -/
theorem getD_snoc_length (z : List Nat) (l n : Nat) (h : z.length = n) :
    (z ++ [l]).getD n 0 = l := by
  rw [List.getD_append_right _ _ _ _ (by omega), h, Nat.sub_self]
  rfl

/-- Appending state `l` to a sequence of `n + 1` states adds the transition into `l` and
the emission term of `l` at site `n + 1` to the score. -/
theorem pathScore_snoc {R L : Type} [One R] [Sub R] [Add L] (P : Prims R L) (data : DMat L)
    (F aa : R) (prior : Nat → Nat → Nat → L) (pos_dist : Nat → R) (n l : Nat) (z : List Nat)
    (hz : z.length = n + 1) :
    pathScore P data F aa prior pos_dist (n + 1) (z ++ [l]) =
      pathScore P data F aa prior pos_dist n z +
        (P.calc_trans (z.getD n 0) l (pos_dist (n + 1)) F aa +
          P.logsum3 (data (n + 1) 0 + prior (n + 1) l 0) (data (n + 1) 1 + prior (n + 1) l 1)
            (data (n + 1) 2 + prior (n + 1) l 2)) := by
  have h1n : 1 + 1 * n = n + 1 := by omega
  unfold pathScore
  rw [List.range'_concat, List.foldl_append, h1n]
  simp only [List.foldl_cons, List.foldl_nil, Nat.add_sub_cancel]
  rw [getD_snoc_length z l (n + 1) hz, getD_snoc_lt z l n (by omega),
    getD_snoc_lt z l 0 (by omega)]
  congr 1
  apply List.foldl_ext
  intro acc s hs
  rw [List.mem_range'_1] at hs
  rw [getD_snoc_lt z l s (by omega), getD_snoc_lt z l (s - 1) (by omega)]

/-- Appending state `l` to a sequence of `n + 1` states multiplies the probability by the
transition into `l` and the emission of `l` at site `n + 1`. -/
theorem pathProb_snoc {R L S : Type} [One R] [Sub R] [Add L] [CommSemiring S]
    (P : Prims R L) (exp : L → S) (data : DMat L) (F aa : R) (prior : Nat → Nat → Nat → L)
    (pos_dist : Nat → R) (n l : Nat) (z : List Nat) (hz : z.length = n + 1) :
    pathProb P exp data F aa prior pos_dist (n + 1) (z ++ [l]) =
      pathProb P exp data F aa prior pos_dist n z *
        (exp (P.calc_trans (z.getD n 0) l (pos_dist (n + 1)) F aa) *
          ((List.range 3).map (fun g => exp (data (n + 1) g + prior (n + 1) l g))).sum) := by
  have h1n : 1 + 1 * n = n + 1 := by omega
  unfold pathProb
  rw [List.range'_concat, List.map_append, List.prod_append, h1n]
  simp only [List.map_cons, List.map_nil, List.prod_cons, List.prod_nil, Nat.add_sub_cancel,
    mul_one]
  rw [getD_snoc_length z l (n + 1) hz, getD_snoc_lt z l n (by omega),
    getD_snoc_lt z l 0 (by omega), mul_assoc]
  congr 2
  apply congrArg List.prod
  apply List.map_congr_left
  intro s hs
  rw [List.mem_range'_1] at hs
  rw [getD_snoc_lt z l s (by omega), getD_snoc_lt z l (s - 1) (by omega)]

/-- The sum over the three genotypes, written out. -/
theorem sum_range_three {S : Type} [AddCommMonoid S] (f : Nat → S) :
    ((List.range 3).map f).sum = f 0 + f 1 + f 2 := by
  have h : List.range 3 = [0, 1, 2] := rfl
  rw [h]
  simp only [List.map_cons, List.map_nil, List.sum_cons, List.sum_nil, add_zero, add_assoc]

/-- The forward cell `Fw[s][l]` holds the logarithm of the total probability of the state
sequences `(z_0, ..., z_s)` that end in `l`. -/
theorem forward_cell_path_sum {R L S : Type} [LinearOrderedField R] [Add L]
    [CommSemiring S] (P : Prims R L) (exp : L → S) (ofR : R → S) (hX : IsExp P exp ofR)
    (Fw data : DMat L) (F aa : R) (prior : Nat → Nat → Nat → L) (path : Nat → Nat)
    (pos_dist : Nat → R) (length s : Nat) :
    s ≤ length → ∀ l, l < 2 →
      exp ((forward P Fw data F aa prior path pos_dist length).1 s l) =
        ((seqsEnding s l).map (pathProb P exp data F aa prior pos_dist s)).sum := by
  have hrec := forward_rec P Fw data F aa prior path pos_dist length
  induction s with
  | zero =>
    intro _ l hl
    have hl01 : l = 0 ∨ l = 1 := by omega
    rcases hl01 with rfl | rfl
    · rw [hrec.1]
      simp [seqsEnding, pathProb]
    · rw [hrec.2.1]
      simp [seqsEnding, pathProb]
  | succ s ih =>
    intro hs l hl
    have hstep : ∀ k,
        ((seqsEnding s k).map
          (pathProb P exp data F aa prior pos_dist (s + 1) ∘ fun z => z ++ [l])).sum =
        ((seqsEnding s k).map (pathProb P exp data F aa prior pos_dist s)).sum *
          (exp (P.calc_trans k l (pos_dist (s + 1)) F aa) *
            ((List.range 3).map
              (fun g => exp (data (s + 1) g + prior (s + 1) l g))).sum) := by
      intro k
      rw [← List.sum_map_mul_right]
      apply congrArg List.sum
      apply List.map_congr_left
      intro z hz
      obtain ⟨hlen, hlast⟩ := seqsEnding_spec s k z hz
      rw [Function.comp_apply, pathProb_snoc P exp data F aa prior pos_dist s l z hlen, hlast]
    rw [hrec.2.2 (s + 1) l (by omega) hs hl]
    unfold fwVal
    simp only [Nat.add_sub_cancel]
    rw [hX.exp_add, hX.exp_logsum2, hX.exp_add, hX.exp_add, hX.exp_logsum3,
      ih (by omega) 0 (by omega), ih (by omega) 1 (by omega)]
    simp only [seqsEnding, List.map_map, List.map_append, List.sum_append]
    rw [hstep 0, hstep 1, sum_range_three]
    ring

/-- Row 0 and the recurrence of the matrix `viterbi` leaves. -/
theorem viterbi_rec {R L : Type} [One R] [Sub R] [Add L] [Max L] [LT L]
    [DecidableRel (fun a b : L => a < b)] (P : Prims R L) (Vi data : DMat L)
    (F aa : R) (prior : Nat → Nat → Nat → L) (path : Nat → Nat) (pos_dist : Nat → R)
    (length : Nat) :
    (viterbi P Vi data F aa prior path pos_dist length).1 0 0 = P.log (1 - F) ∧
    (viterbi P Vi data F aa prior path pos_dist length).1 0 1 = P.log F ∧
    (∀ s l, 1 ≤ s → s ≤ length → l < 2 →
      (viterbi P Vi data F aa prior path pos_dist length).1 s l =
        viVal P data F aa prior pos_dist s l
          ((viterbi P Vi data F aa prior path pos_dist length).1 (s - 1) 0)
          ((viterbi P Vi data F aa prior path pos_dist length).1 (s - 1) 1)) := by
  rw [viterbi_fst]
  refine ⟨?_, ?_, ?_⟩
  · rw [rowLoop_frame _ _ _ 0 0 (Or.inl rfl)]
    exact (init_row Vi _ _).1
  · rw [rowLoop_frame _ _ _ 0 1 (Or.inl rfl)]
    exact (init_row Vi _ _).2.1
  · intro s l hs hn hl
    exact rowLoop_rec (viVal P data F aa prior pos_dist) length _ s l hs hn hl

/-- In max-plus arithmetic the Viterbi cell `Vi[s][l]` is the largest score of the state
sequences `(z_0, ..., z_s)` that end in `l`: an upper bound that one of them attains. -/
theorem viterbi_cell_best {R L : Type} [One R] [Sub R] [Add L] [LE L] [Max L] [LT L]
    [DecidableRel (fun a b : L => a < b)] (P : Prims R L) (hM : MaxPlus L)
    (Vi data : DMat L) (F aa : R) (prior : Nat → Nat → Nat → L) (path : Nat → Nat)
    (pos_dist : Nat → R) (length s : Nat) :
    s ≤ length → ∀ l, l < 2 →
      (∀ z ∈ seqsEnding s l,
        pathScore P data F aa prior pos_dist s z ≤
          (viterbi P Vi data F aa prior path pos_dist length).1 s l) ∧
      (∃ z ∈ seqsEnding s l,
        pathScore P data F aa prior pos_dist s z =
          (viterbi P Vi data F aa prior path pos_dist length).1 s l) := by
  have hv := viterbi_rec P Vi data F aa prior path pos_dist length
  have h00 := hv.1
  have h01 := hv.2.1
  have hrec := hv.2.2
  induction s with
  | zero =>
    intro _ l hl
    have hl01 : l = 0 ∨ l = 1 := by omega
    rcases hl01 with rfl | rfl
    · rw [h00]
      refine ⟨?_, [0], by simp [seqsEnding], by simp [pathScore]⟩
      intro z hz
      simp only [seqsEnding, List.mem_singleton] at hz
      subst hz
      simp only [pathScore, List.range'_zero, List.foldl_nil, List.getD_cons_zero, if_true]
      exact hM.le_refl _
    · rw [h01]
      refine ⟨?_, [1], by simp [seqsEnding], by simp [pathScore]⟩
      intro z hz
      simp only [seqsEnding, List.mem_singleton] at hz
      subst hz
      simp only [pathScore, List.range'_zero, List.foldl_nil, List.getD_cons_zero]
      simp only [Nat.one_ne_zero, if_false]
      exact hM.le_refl _
  | succ s ih =>
    intro hs l hl
    have i0 := ih (by omega) 0 (by omega)
    have i1 := ih (by omega) 1 (by omega)
    rw [hrec (s + 1) l (by omega) hs hl]
    unfold viVal
    simp only [Nat.add_sub_cancel]
    constructor
    · intro z hz
      simp only [seqsEnding, List.mem_map, List.mem_append] at hz
      obtain ⟨y, hy, rfl⟩ := hz
      rcases hy with hy | hy
      · obtain ⟨hlen, hlast⟩ := seqsEnding_spec s 0 y hy
        rw [pathScore_snoc P data F aa prior pos_dist s l y hlen, hlast, ← hM.add_assoc]
        exact hM.add_le_add_right _ _ _
          (hM.le_trans _ _ _ (hM.add_le_add_right _ _ _ (i0.1 y hy)) (hM.le_max_left _ _))
      · obtain ⟨hlen, hlast⟩ := seqsEnding_spec s 1 y hy
        rw [pathScore_snoc P data F aa prior pos_dist s l y hlen, hlast, ← hM.add_assoc]
        exact hM.add_le_add_right _ _ _
          (hM.le_trans _ _ _ (hM.add_le_add_right _ _ _ (i1.1 y hy)) (hM.le_max_right _ _))
    · rcases hM.max_choice
          ((viterbi P Vi data F aa prior path pos_dist length).1 s 0 +
            P.calc_trans 0 l (pos_dist (s + 1)) F aa)
          ((viterbi P Vi data F aa prior path pos_dist length).1 s 1 +
            P.calc_trans 1 l (pos_dist (s + 1)) F aa) with hmax | hmax
      · obtain ⟨y, hy, hsc⟩ := i0.2
        obtain ⟨hlen, hlast⟩ := seqsEnding_spec s 0 y hy
        refine ⟨y ++ [l], ?_, ?_⟩
        · simp only [seqsEnding, List.mem_map, List.mem_append]
          exact ⟨y, Or.inl hy, rfl⟩
        · rw [pathScore_snoc P data F aa prior pos_dist s l y hlen, hlast, ← hM.add_assoc,
            hsc, hmax]
      · obtain ⟨y, hy, hsc⟩ := i1.2
        obtain ⟨hlen, hlast⟩ := seqsEnding_spec s 1 y hy
        refine ⟨y ++ [l], ?_, ?_⟩
        · simp only [seqsEnding, List.mem_map, List.mem_append]
          exact ⟨y, Or.inr hy, rfl⟩
        · rw [pathScore_snoc P data F aa prior pos_dist s l y hlen, hlast, ← hM.add_assoc,
            hsc, hmax]

/-! ## The models have an exponential and a maximum -/

theorem qPrims_isExp (ct : Nat → Nat → ℚ → ℚ → ℚ → LogQ) :
    IsExp (qPrims ct) LogQ.exp Rat.toNNRat where
  exp_add a b := rfl
  exp_logsum2 a b := rfl
  exp_logsum3 a b c := rfl
  exp_logsum a b := by simp [qPrims]
  exp_log x hx := rfl

theorem logQ_maxPlus : MaxPlus LogQ where
  add_assoc a b c := by simp only [LogQ.eq_iff, LogQ.add_exp, mul_assoc]
  le_refl a := le_refl a.exp
  le_trans a b c h1 h2 := (le_trans h1 h2 : a.exp ≤ c.exp)
  add_le_add_right a b c h := by
    have h2 : a.exp ≤ b.exp := h
    exact (mul_le_mul_right' h2 c.exp : a.exp * c.exp ≤ b.exp * c.exp)
  le_max_left a b := (le_max_left a.exp b.exp : a.exp ≤ max a.exp b.exp)
  le_max_right a b := (le_max_right a.exp b.exp : b.exp ≤ max a.exp b.exp)
  max_choice a b := by
    rcases le_total a.exp b.exp with h | h
    · right
      rw [LogQ.eq_iff, LogQ.max_exp, max_eq_right h]
    · left
      rw [LogQ.eq_iff, LogQ.max_exp, max_eq_left h]

theorem erealPrims_isExp (ct : Nat → Nat → ℝ → ℝ → ℝ → EReal) :
    IsExp (erealPrims ct) EReal.exp ENNReal.ofReal where
  exp_add a b := EReal.exp_add a b
  exp_logsum2 a b := by simp only [erealPrims, ENNReal.exp_log]
  exp_logsum3 a b c := by simp only [erealPrims, ENNReal.exp_log]
  exp_logsum a b := by simp [erealPrims]
  exp_log x hx := by simp only [erealPrims, ENNReal.exp_log]

theorem ereal_maxPlus : MaxPlus EReal where
  add_assoc a b c := add_assoc a b c
  le_refl a := le_refl a
  le_trans a b c h1 h2 := le_trans h1 h2
  add_le_add_right a b c h := add_le_add_right h c
  le_max_left a b := le_max_left a b
  le_max_right a b := le_max_right a b
  max_choice a b := max_choice a b

/-! ## A sequence on which the labels are not a best path -/

/-- The Viterbi matrix of the sequence `trapData` with `F = 1/2`, `aa = 1/5` over the
rational model. -/
theorem trap_viterbi_cells :
    (viterbi (qPrims mixTrans) demoBuf trapData (1 / 2) (1 / 5) trapPrior (fun _ => 0)
      demoDist 2).1 1 0 = ⟨27 / 100⟩ ∧
    (viterbi (qPrims mixTrans) demoBuf trapData (1 / 2) (1 / 5) trapPrior (fun _ => 0)
      demoDist 2).1 1 1 = ⟨9 / 40⟩ ∧
    (viterbi (qPrims mixTrans) demoBuf trapData (1 / 2) (1 / 5) trapPrior (fun _ => 0)
      demoDist 2).1 2 0 = ⟨243 / 100000⟩ ∧
    (viterbi (qPrims mixTrans) demoBuf trapData (1 / 2) (1 / 5) trapPrior (fun _ => 0)
      demoDist 2).1 2 1 = ⟨81 / 400⟩ := by
  have h := viterbi_rec (qPrims mixTrans) demoBuf trapData (1 / 2) (1 / 5) trapPrior
    (fun _ => 0) demoDist 2
  have h10 := h.2.2 1 0 (by decide) (by decide) (by decide)
  have h11 := h.2.2 1 1 (by decide) (by decide) (by decide)
  have h20 := h.2.2 2 0 (by decide) (by decide) (by decide)
  have h21 := h.2.2 2 1 (by decide) (by decide) (by decide)
  simp only [Nat.sub_self, Nat.reduceSub] at h10 h11 h20 h21
  rw [h.1, h.2.1] at h10 h11
  have e10 : (viterbi (qPrims mixTrans) demoBuf trapData (1 / 2) (1 / 5) trapPrior
      (fun _ => 0) demoDist 2).1 1 0 = ⟨27 / 100⟩ := by
    rw [h10]
    simp [viVal, qPrims, mixTrans, trapData, trapPrior, LogQ.eq_iff, LogQ.add_exp,
      LogQ.max_exp, coe_toNNRat_max]
    norm_num
  have e11 : (viterbi (qPrims mixTrans) demoBuf trapData (1 / 2) (1 / 5) trapPrior
      (fun _ => 0) demoDist 2).1 1 1 = ⟨9 / 40⟩ := by
    rw [h11]
    simp [viVal, qPrims, mixTrans, trapData, trapPrior, LogQ.eq_iff, LogQ.add_exp,
      LogQ.max_exp, coe_toNNRat_max]
    norm_num
  rw [e10, e11] at h20 h21
  refine ⟨e10, e11, ?_, ?_⟩
  · rw [h20]
    simp [viVal, qPrims, mixTrans, trapData, trapPrior, LogQ.eq_iff, LogQ.add_exp,
      LogQ.max_exp, coe_toNNRat_max]
    norm_num
  · rw [h21]
    simp [viVal, qPrims, mixTrans, trapData, trapPrior, LogQ.eq_iff, LogQ.add_exp,
      LogQ.max_exp, coe_toNNRat_max]
    norm_num

/-- The labels `viterbi` writes for the sequence `trapData` and the value it returns. -/
theorem trap_viterbi_result :
    (viterbi (qPrims mixTrans) demoBuf trapData (1 / 2) (1 / 5) trapPrior (fun _ => 0)
      demoDist 2).2.1 1 = 0 ∧
    (viterbi (qPrims mixTrans) demoBuf trapData (1 / 2) (1 / 5) trapPrior (fun _ => 0)
      demoDist 2).2.1 2 = 1 ∧
    (viterbi (qPrims mixTrans) demoBuf trapData (1 / 2) (1 / 5) trapPrior (fun _ => 0)
      demoDist 2).2.2 = ⟨81 / 400⟩ := by
  have hc := trap_viterbi_cells
  refine ⟨?_, ?_, ?_⟩
  · rw [viterbi_path, if_pos (by decide), hc.1, hc.2.1]
    have hlt : (⟨9 / 40⟩ : LogQ) < ⟨27 / 100⟩ := by
      rw [LogQ.lt_iff]
      push_cast
      norm_num
    exact if_pos hlt
  · rw [viterbi_path, if_pos (by decide), hc.2.2.1, hc.2.2.2]
    have hlt : ¬ ((⟨81 / 400⟩ : LogQ) < ⟨243 / 100000⟩) := by
      rw [LogQ.lt_iff]
      push_cast
      norm_num
    exact if_neg hlt
  · rw [viterbi_snd, hc.2.2.1, hc.2.2.2, LogQ.eq_iff, LogQ.max_exp]
    push_cast
    norm_num

/-- The joint log-probabilities of three state sequences for the sequence `trapData`. -/
theorem trap_scores :
    pathScore (qPrims mixTrans) trapData (1 / 2) (1 / 5) trapPrior demoDist 2 [0, 0, 1] =
      ⟨27 / 1000⟩ ∧
    pathScore (qPrims mixTrans) trapData (1 / 2) (1 / 5) trapPrior demoDist 2 [1, 0, 1] =
      ⟨3 / 1000⟩ ∧
    pathScore (qPrims mixTrans) trapData (1 / 2) (1 / 5) trapPrior demoDist 2 [1, 1, 1] =
      ⟨81 / 400⟩ := by
  have hr : List.range' 1 2 = [1, 2] := rfl
  refine ⟨?_, ?_, ?_⟩ <;>
    · simp [pathScore, hr, qPrims, mixTrans, trapData, trapPrior, LogQ.eq_iff, LogQ.add_exp,
        coe_toNNRat_max]
      norm_num

/-! ## The model with special values obeys the IEEE laws -/

theorem XLog.regular_iff (a : XLog) :
    Regular (fun x => x = XLog.nan) XLog.pinf a ↔ ∃ e, a = XLog.val e := by
  cases a with
  | nan => simp [Regular]
  | val e => simp [Regular]
  | pinf => simp [Regular]

theorem XLog.val_add_val (a b : NNRat) : XLog.val a + XLog.val b = XLog.val (a * b) := rfl

theorem XLog.nan_add (a : XLog) : XLog.nan + a = XLog.nan := by
  cases a <;> rfl

theorem XLog.add_nan (a : XLog) : a + XLog.nan = XLog.nan := by
  cases a <;> rfl

theorem XLog.ninf_add_pinf : XLog.val 0 + XLog.pinf = XLog.nan := by
  show XLog.add (XLog.val 0) XLog.pinf = XLog.nan
  simp [XLog.add]

theorem XLog.logsum2_val (a b : NNRat) :
    XLog.logsum2 (XLog.val a) (XLog.val b) = XLog.val (a + b) := rfl

theorem XLog.logsum2_nan_left (a : XLog) : XLog.logsum2 XLog.nan a = XLog.nan := by
  cases a <;> rfl

theorem XLog.logsum2_nan_right (a : XLog) : XLog.logsum2 a XLog.nan = XLog.nan := by
  cases a <;> rfl

theorem xPrims_log_zero (ct : Nat → Nat → ℚ → ℚ → ℚ → XLog) :
    (xPrims ct).log 0 = XLog.val 0 := by
  simp [xPrims]

theorem xPrims_logsum2 (ct : Nat → Nat → ℚ → ℚ → ℚ → XLog) (a b : XLog) :
    (xPrims ct).logsum2 a b = XLog.logsum2 a b := rfl

theorem xPrims_ieee (ct : Nat → Nat → ℚ → ℚ → ℚ → XLog) :
    IeeeLaws (xPrims ct) (fun x => x = XLog.nan) XLog.pinf where
  log_regular x hx := by
    rw [XLog.regular_iff]
    exact ⟨x.toNNRat, by simp [xPrims, not_lt.mpr hx]⟩
  log_neg x hx := by simp [xPrims, hx]
  add_regular a b ha hb := by
    rw [XLog.regular_iff] at ha hb ⊢
    obtain ⟨x, rfl⟩ := ha
    obtain ⟨y, rfl⟩ := hb
    exact ⟨x * y, rfl⟩
  logsum2_regular a b ha hb := by
    rw [XLog.regular_iff] at ha hb ⊢
    obtain ⟨x, rfl⟩ := ha
    obtain ⟨y, rfl⟩ := hb
    exact ⟨x + y, rfl⟩
  logsum3_regular a b c ha hb hc := by
    rw [XLog.regular_iff] at ha hb hc ⊢
    obtain ⟨x, rfl⟩ := ha
    obtain ⟨y, rfl⟩ := hb
    obtain ⟨z, rfl⟩ := hc
    exact ⟨x + y + z, rfl⟩
  ninf_add a ha := by
    rw [XLog.regular_iff] at ha
    obtain ⟨x, rfl⟩ := ha
    rw [xPrims_log_zero, XLog.val_add_val, zero_mul]
  add_ninf a ha := by
    rw [XLog.regular_iff] at ha
    obtain ⟨x, rfl⟩ := ha
    rw [xPrims_log_zero, XLog.val_add_val, mul_zero]
  ninf_add_pinf := by
    rw [xPrims_log_zero]
    exact XLog.ninf_add_pinf
  logsum2_ninf := by
    rw [xPrims_log_zero]
    simp [xPrims, XLog.logsum2_val]
  logsum3_ninf := by
    rw [xPrims_log_zero]
    simp [xPrims, XLog.logsum2_val]
  logsum_ninf := by
    rw [xPrims_log_zero]
    simp [xPrims, XLog.logsum2_val]

/-- With `F` in `[0,1]` and regular data, priors and transition log-probabilities, every
cell `forward` writes is regular. -/
theorem forward_regular {R L : Type} [LinearOrderedField R] [Add L] (P : Prims R L)
    (isNaN : L → Prop) (pinf : L) (hI : IeeeLaws P isNaN pinf) (Fw data : DMat L)
    (F aa : R) (prior : Nat → Nat → Nat → L) (path : Nat → Nat) (pos_dist : Nat → R)
    (length : Nat) (hF0 : 0 ≤ F) (hF1 : F ≤ 1)
    (hdata : ∀ s g, 1 ≤ s → s ≤ length → g < 3 → Regular isNaN pinf (data s g))
    (hprior : ∀ s l g, 1 ≤ s → s ≤ length → l < 2 → g < 3 →
      Regular isNaN pinf (prior s l g))
    (htrans : ∀ k l s, k < 2 → l < 2 → 1 ≤ s → s ≤ length →
      Regular isNaN pinf (P.calc_trans k l (pos_dist s) F aa)) (s : Nat) :
    s ≤ length → ∀ l, l < 2 →
      Regular isNaN pinf ((forward P Fw data F aa prior path pos_dist length).1 s l) := by
  have hrec := forward_rec P Fw data F aa prior path pos_dist length
  induction s with
  | zero =>
    intro _ l hl
    have hl01 : l = 0 ∨ l = 1 := by omega
    rcases hl01 with rfl | rfl
    · rw [hrec.1]
      exact hI.log_regular _ (sub_nonneg.mpr hF1)
    · rw [hrec.2.1]
      exact hI.log_regular _ hF0
  | succ s ih =>
    intro hs l hl
    rw [hrec.2.2 (s + 1) l (by omega) hs hl]
    simp only [Nat.add_sub_cancel]
    exact hI.add_regular _ _
      (hI.logsum2_regular _ _
        (hI.add_regular _ _ (ih (by omega) 0 (by omega))
          (htrans 0 l (s + 1) (by omega) hl (by omega) hs))
        (hI.add_regular _ _ (ih (by omega) 1 (by omega))
          (htrans 1 l (s + 1) (by omega) hl (by omega) hs)))
      (hI.logsum3_regular _ _ _
        (hI.add_regular _ _ (hdata (s + 1) 0 (by omega) hs (by omega))
          (hprior (s + 1) l 0 (by omega) hs hl (by omega)))
        (hI.add_regular _ _ (hdata (s + 1) 1 (by omega) hs (by omega))
          (hprior (s + 1) l 1 (by omega) hs hl (by omega)))
        (hI.add_regular _ _ (hdata (s + 1) 2 (by omega) hs (by omega))
          (hprior (s + 1) l 2 (by omega) hs hl (by omega))))

/-! ## Specification claims -/

/-- C1 (forward/backward agreement): in exact arithmetic, for every length, every data,
prior and pos_dist table, every `F` and `aa` (in particular every `(F, aa)` in
`[0,1] x [0,1]`) and every initial content of the two buffers, `forward` and `backward`
return the same value; `calc_trans` is the same function in both. -/
theorem C1_forward_backward_agree {R L : Type} [LinearOrderedField R] [Add L] [Zero L]
    (P : Prims R L) (hE : Exact P) (Fw Bw data : DMat L) (F aa : R)
    (prior : Nat → Nat → Nat → L) (path : Nat → Nat) (pos_dist : Nat → R) (length : Nat) :
    (forward P Fw data F aa prior path pos_dist length).2 =
      (backward P Bw data F aa prior path pos_dist length).2 := by
  have hrec := forward_rec P Fw data F aa prior path pos_dist length
  have hinv := fb_invariant P hE data F aa prior pos_dist length
    (forward P Fw data F aa prior path pos_dist length).1
    (colLoop (bwVal P data F aa prior pos_dist) length
      ((Bw.set length 0 (P.log 1)).set length 1 (P.log 1)))
    hrec.2.2
    (fun s k h1 hn hk => colLoop_rec (bwVal P data F aa prior pos_dist) length _ s k h1 hn hk)
    length (le_refl _)
  have hlast : ∀ j, j < 2 →
      colLoop (bwVal P data F aa prior pos_dist) length
        ((Bw.set length 0 (P.log 1)).set length 1 (P.log 1)) length j = 0 := by
    intro j hj
    rw [colLoop_frame _ _ _ _ _ (Or.inl (le_refl _)), last_row _ _ _ _ hj, hE.log_one]
  rw [hlast 0 (by omega), hlast 1 (by omega), hE.add_zero, hE.add_zero, hrec.1, hrec.2.1]
    at hinv
  rw [forward_snd, backward_snd, hE.logsum_two, hE.logsum_two, ← hinv, backward_fst_apply,
    backward_fst_apply, if_neg (by omega), if_pos ⟨rfl, rfl⟩, if_pos ⟨rfl, rfl⟩,
    hE.add_comm (P.log (1 - F)), hE.add_comm (P.log F)]

/-- C1 at a sample input: a sequence of length 2 over the rational model. -/
theorem C1_forward_backward_agree_witness :
    Exact (qPrims mixTrans) ∧
    (forward (qPrims mixTrans) demoBuf demoData (1 / 4) (1 / 2) demoPrior (fun _ => 0)
      demoDist 2).2 =
    (backward (qPrims mixTrans) demoBuf demoData (1 / 4) (1 / 2) demoPrior (fun _ => 0)
      demoDist 2).2 :=
  ⟨qPrims_exact mixTrans,
    C1_forward_backward_agree (qPrims mixTrans) (qPrims_exact mixTrans) demoBuf demoBuf
      demoData (1 / 4) (1 / 2) demoPrior (fun _ => 0) demoDist 2⟩

/-- C2 (concrete scenario): for `length = 1`, `data[1] = {0, -infinity, -infinity}`,
`prior[1][0][0] = log 1`, `prior[1][1][0] = log 0`, `F = 0.5`, any `aa` and a transition
function whose stationary distribution across `pos_dist[1]` is `{1-F, F}`, in exact
arithmetic `forward` returns `log(1-F) = log(0.5)`. -/
theorem C2_concrete_scenario {R L : Type} [LinearOrderedField R] [Add L] [Zero L]
    (P : Prims R L) (hE : Exact P) (Fw data : DMat L) (aa : R)
    (prior : Nat → Nat → Nat → L) (path : Nat → Nat) (pos_dist : Nat → R)
    (hd0 : data 1 0 = 0) (hd1 : data 1 1 = P.log 0) (hd2 : data 1 2 = P.log 0)
    (hp0 : prior 1 0 0 = P.log 1) (hp1 : prior 1 1 0 = P.log 0)
    (hst : Stationary P (pos_dist 1) (1 / 2) aa) :
    (forward P Fw data (1 / 2) aa prior path pos_dist 1).2 = P.log (1 - 1 / 2) ∧
    (forward P Fw data (1 / 2) aa prior path pos_dist 1).2 = P.log (1 / 2) := by
  have hrec := forward_rec P Fw data (1 / 2) aa prior path pos_dist 1
  have hc0 : (forward P Fw data (1 / 2) aa prior path pos_dist 1).1 1 0 =
      P.log (1 - 1 / 2) := by
    rw [hrec.2.2 1 0 (le_refl _) (le_refl _) (by omega)]
    simp only [Nat.sub_self]
    rw [hrec.1, hrec.2.1]
    unfold fwVal
    rw [hst.1, hd0, hd1, hd2, hp0, hE.log_one, hE.logsum3_eq, hE.ninf_add, hE.ninf_add,
      hE.logsum2_ninf, hE.logsum2_ninf, hE.zero_add, hE.add_zero]
  have hc1 : (forward P Fw data (1 / 2) aa prior path pos_dist 1).1 1 1 = P.log 0 := by
    rw [hrec.2.2 1 1 (le_refl _) (le_refl _) (by omega)]
    unfold fwVal
    rw [hd0, hd1, hd2, hp1, hE.logsum3_eq, hE.ninf_add, hE.ninf_add,
      hE.logsum2_ninf, hE.logsum2_ninf, hE.zero_add, hE.add_ninf]
  have hv : (forward P Fw data (1 / 2) aa prior path pos_dist 1).2 = P.log (1 - 1 / 2) := by
    rw [forward_snd, hc0, hc1, hE.logsum_two, hE.logsum2_ninf]
  refine ⟨hv, ?_⟩
  rw [hv]
  congr 1
  norm_num

/-- C2 at a sample input: the scenario over the rational model with `aa = 1/3`. -/
theorem C2_concrete_scenario_witness :
    Exact (qPrims mixTrans) ∧ scenData 1 0 = 0 ∧ scenData 1 1 = (qPrims mixTrans).log 0 ∧
    scenData 1 2 = (qPrims mixTrans).log 0 ∧ scenPrior 1 0 0 = (qPrims mixTrans).log 1 ∧
    scenPrior 1 1 0 = (qPrims mixTrans).log 0 ∧
    Stationary (qPrims mixTrans) (demoDist 1) (1 / 2) (1 / 3) ∧
    (forward (qPrims mixTrans) demoBuf scenData (1 / 2) (1 / 3) scenPrior (fun _ => 0)
      demoDist 1).2 = (qPrims mixTrans).log (1 / 2) :=
  ⟨qPrims_exact mixTrans, rfl, by simp [scenData, qPrims], by simp [scenData, qPrims],
    by simp [scenPrior, qPrims], by simp [scenPrior, qPrims],
    by
      constructor <;>
        simp [qPrims, mixTrans, LogQ.eq_iff, LogQ.add_exp, coe_toNNRat_max] <;> norm_num,
    (C2_concrete_scenario (qPrims mixTrans) (qPrims_exact mixTrans) demoBuf scenData (1 / 3)
      scenPrior (fun _ => 0) demoDist rfl (by simp [scenData, qPrims])
      (by simp [scenData, qPrims]) (by simp [scenPrior, qPrims]) (by simp [scenPrior, qPrims])
      (by
        constructor <;>
          simp [qPrims, mixTrans, LogQ.eq_iff, LogQ.add_exp, coe_toNNRat_max] <;>
          norm_num)).2⟩

/-- C3 (Viterbi/forward ordering): with the same data, prior, pos_dist, length, F, aa and
primitives given to both engines, in exact ordered arithmetic, `Vi[s][l] <= Fw[s][l]` for
every site `s` in `0..length` and state `l` in `{0,1}`, whatever the two buffers held
before. -/
theorem C3_viterbi_le_forward {R L : Type} [One R] [Sub R] [Add L] [LE L] [Max L] [LT L]
    [DecidableRel (fun a b : L => a < b)] (P : Prims R L) (hO : Ordered P)
    (Vi Fw data : DMat L) (F aa : R) (prior : Nat → Nat → Nat → L) (path : Nat → Nat)
    (pos_dist : Nat → R) (length s l : Nat) (hs : s ≤ length) (hl : l < 2) :
    (viterbi P Vi data F aa prior path pos_dist length).1 s l ≤
      (forward P Fw data F aa prior path pos_dist length).1 s l := by
  rw [viterbi_fst, forward_fst]
  exact viterbi_le_forward_loop P hO data F aa prior pos_dist length _ _
    ((init_row Vi _ _).1.trans (init_row Fw _ _).1.symm)
    ((init_row Vi _ _).2.1.trans (init_row Fw _ _).2.1.symm) s hs l hl

/-- C3 at a sample input: site 2, state 1 of a sequence of length 2 over the rational
model. -/
theorem C3_viterbi_le_forward_witness :
    Ordered (qPrims mixTrans) ∧ 2 ≤ 2 ∧ 1 < 2 ∧
    (viterbi (qPrims mixTrans) demoBuf demoData (1 / 4) (1 / 2) demoPrior (fun _ => 0)
      demoDist 2).1 2 1 ≤
    (forward (qPrims mixTrans) demoBuf demoData (1 / 4) (1 / 2) demoPrior (fun _ => 0)
      demoDist 2).1 2 1 :=
  ⟨qPrims_ordered mixTrans, by decide, by decide,
    C3_viterbi_le_forward (qPrims mixTrans) (qPrims_ordered mixTrans) demoBuf demoBuf demoData
      (1 / 4) (1 / 2) demoPrior (fun _ => 0) demoDist 2 2 1 (by decide) (by decide)⟩

/-- C5 (boundary correctness): for `length = 0` and `F` in `[0,1]`, in exact arithmetic,
`forward` returns `log((1-F) + F)`, which is `0`, and changes no cell outside row 0. -/
theorem C5_forward_boundary {R L : Type} [LinearOrderedField R] [Add L] [Zero L]
    (P : Prims R L) (hE : Exact P) (Fw data : DMat L) (F aa : R)
    (prior : Nat → Nat → Nat → L) (path : Nat → Nat) (pos_dist : Nat → R)
    (hF0 : 0 ≤ F) (hF1 : F ≤ 1) :
    (forward P Fw data F aa prior path pos_dist 0).2 = P.log ((1 - F) + F) ∧
    (forward P Fw data F aa prior path pos_dist 0).2 = 0 ∧
    (∀ i j, i ≠ 0 → (forward P Fw data F aa prior path pos_dist 0).1 i j = Fw i j) := by
  have hv : (forward P Fw data F aa prior path pos_dist 0).2 = P.log ((1 - F) + F) := by
    rw [forward_snd, forward_fst, rowLoop_zero, (init_row Fw _ _).1, (init_row Fw _ _).2.1,
      hE.logsum_two, hE.logsum2_log _ _ (sub_nonneg.mpr hF1) hF0]
  refine ⟨hv, ?_, ?_⟩
  · rw [hv, sub_add_cancel, hE.log_one]
  · intro i j hi
    rw [forward_fst, rowLoop_zero]
    exact (init_row Fw _ _).2.2 i j hi

/-- C5 at a sample input: `F = 1/4` over the rational model. -/
theorem C5_forward_boundary_witness :
    Exact (qPrims mixTrans) ∧ (0 : ℚ) ≤ 1 / 4 ∧ (1 / 4 : ℚ) ≤ 1 ∧
    (forward (qPrims mixTrans) demoBuf demoData (1 / 4) (1 / 2) demoPrior (fun _ => 0)
      demoDist 0).2 = 0 :=
  ⟨qPrims_exact mixTrans, by norm_num, by norm_num,
    (C5_forward_boundary (qPrims mixTrans) (qPrims_exact mixTrans) demoBuf demoData (1 / 4)
      (1 / 2) demoPrior (fun _ => 0) demoDist (by norm_num) (by norm_num)).2.1⟩

/-- C6 (forward recursion): after `forward` returns, `Fw[0] = {log(1-F), log(F)}`; for every
site `s` in `1..length` and state `l` in `{0,1}`,
`Fw[s][l] = logsum2(Fw[s-1][0] + calc_trans(0,l,pos_dist[s],F,aa),
Fw[s-1][1] + calc_trans(1,l,pos_dist[s],F,aa)) + logsum3(data[s][g] + prior[s][l][g], g = 0,1,2)`;
and the returned value is `logsum` of the two entries `Fw[length][0]`, `Fw[length][1]`.
It holds for whatever the primitives compute and for every initial content of `Fw`. -/
theorem C6_forward_recursion {R L : Type} [One R] [Sub R] [Add L] (P : Prims R L)
    (Fw data : DMat L) (F aa : R) (prior : Nat → Nat → Nat → L) (path : Nat → Nat)
    (pos_dist : Nat → R) (length : Nat) :
    (forward P Fw data F aa prior path pos_dist length).1 0 0 = P.log (1 - F) ∧
    (forward P Fw data F aa prior path pos_dist length).1 0 1 = P.log F ∧
    (∀ s l, 1 ≤ s → s ≤ length → l < 2 →
      (forward P Fw data F aa prior path pos_dist length).1 s l =
        P.logsum2
          ((forward P Fw data F aa prior path pos_dist length).1 (s - 1) 0 +
            P.calc_trans 0 l (pos_dist s) F aa)
          ((forward P Fw data F aa prior path pos_dist length).1 (s - 1) 1 +
            P.calc_trans 1 l (pos_dist s) F aa) +
        P.logsum3 (data s 0 + prior s l 0) (data s 1 + prior s l 1)
          (data s 2 + prior s l 2)) ∧
    (forward P Fw data F aa prior path pos_dist length).2 =
      P.logsum [(forward P Fw data F aa prior path pos_dist length).1 length 0,
        (forward P Fw data F aa prior path pos_dist length).1 length 1] := by
  have h := forward_rec P Fw data F aa prior path pos_dist length
  exact ⟨h.1, h.2.1, h.2.2, rfl⟩

/-- C6 at a sample input: site 2, state 1 of a sequence of length 2 over the rational
model. -/
theorem C6_forward_recursion_witness :
    (forward (qPrims mixTrans) demoBuf demoData (1 / 4) (1 / 2) demoPrior (fun _ => 0)
      demoDist 2).1 2 1 =
      (qPrims mixTrans).logsum2
        ((forward (qPrims mixTrans) demoBuf demoData (1 / 4) (1 / 2) demoPrior (fun _ => 0)
          demoDist 2).1 (2 - 1) 0 + (qPrims mixTrans).calc_trans 0 1 (demoDist 2) (1 / 4) (1 / 2))
        ((forward (qPrims mixTrans) demoBuf demoData (1 / 4) (1 / 2) demoPrior (fun _ => 0)
          demoDist 2).1 (2 - 1) 1 + (qPrims mixTrans).calc_trans 1 1 (demoDist 2) (1 / 4) (1 / 2)) +
      (qPrims mixTrans).logsum3 (demoData 2 0 + demoPrior 2 1 0) (demoData 2 1 + demoPrior 2 1 1)
        (demoData 2 2 + demoPrior 2 1 2) :=
  (C6_forward_recursion (qPrims mixTrans) demoBuf demoData (1 / 4) (1 / 2) demoPrior
    (fun _ => 0) demoDist 2).2.2.1 2 1 (by decide) (by decide) (by decide)

/-- C7 (backward recursion): after `backward` returns with `length >= 1`,
`Bw[length] = {0, 0}`; for every `s` in `2..length` and `k` in `{0,1}`,
`Bw[s-1][k] = logsum2(calc_trans(k,0,pos_dist[s],F,aa) + e0(s) + Bw[s][0],
calc_trans(k,1,pos_dist[s],F,aa) + e1(s) + Bw[s][1])` with
`e_l(s) = logsum3(data[s][g] + prior[s][l][g], g = 0,1,2)`; row 0 is the same expression for
`s = 1` plus `log(1-F)` for `k = 0` and plus `log(F)` for `k = 1`; the returned value is
`logsum` of `Bw[0][0]`, `Bw[0][1]`; and for `length = 0`, `Bw[0] = {log(1-F), log(F)}`.
Only `log 1 = 0` and `0 + a = a` are used of the arithmetic. -/
theorem C7_backward_recursion {R L : Type} [One R] [Sub R] [Add L] [Zero L] (P : Prims R L)
    (hlog1 : P.log 1 = 0) (hzero : ∀ a : L, 0 + a = a)
    (Bw data : DMat L) (F aa : R) (prior : Nat → Nat → Nat → L) (path : Nat → Nat)
    (pos_dist : Nat → R) (length : Nat) :
    (1 ≤ length →
      (backward P Bw data F aa prior path pos_dist length).1 length 0 = 0 ∧
      (backward P Bw data F aa prior path pos_dist length).1 length 1 = 0) ∧
    (∀ s k, 2 ≤ s → s ≤ length → k < 2 →
      (backward P Bw data F aa prior path pos_dist length).1 (s - 1) k =
        P.logsum2
          (P.calc_trans k 0 (pos_dist s) F aa +
            P.logsum3 (data s 0 + prior s 0 0) (data s 1 + prior s 0 1)
              (data s 2 + prior s 0 2) +
            (backward P Bw data F aa prior path pos_dist length).1 s 0)
          (P.calc_trans k 1 (pos_dist s) F aa +
            P.logsum3 (data s 0 + prior s 1 0) (data s 1 + prior s 1 1)
              (data s 2 + prior s 1 2) +
            (backward P Bw data F aa prior path pos_dist length).1 s 1)) ∧
    (1 ≤ length →
      (backward P Bw data F aa prior path pos_dist length).1 0 0 =
        P.logsum2
          (P.calc_trans 0 0 (pos_dist 1) F aa +
            P.logsum3 (data 1 0 + prior 1 0 0) (data 1 1 + prior 1 0 1)
              (data 1 2 + prior 1 0 2) +
            (backward P Bw data F aa prior path pos_dist length).1 1 0)
          (P.calc_trans 0 1 (pos_dist 1) F aa +
            P.logsum3 (data 1 0 + prior 1 1 0) (data 1 1 + prior 1 1 1)
              (data 1 2 + prior 1 1 2) +
            (backward P Bw data F aa prior path pos_dist length).1 1 1) + P.log (1 - F) ∧
      (backward P Bw data F aa prior path pos_dist length).1 0 1 =
        P.logsum2
          (P.calc_trans 1 0 (pos_dist 1) F aa +
            P.logsum3 (data 1 0 + prior 1 0 0) (data 1 1 + prior 1 0 1)
              (data 1 2 + prior 1 0 2) +
            (backward P Bw data F aa prior path pos_dist length).1 1 0)
          (P.calc_trans 1 1 (pos_dist 1) F aa +
            P.logsum3 (data 1 0 + prior 1 1 0) (data 1 1 + prior 1 1 1)
              (data 1 2 + prior 1 1 2) +
            (backward P Bw data F aa prior path pos_dist length).1 1 1) + P.log F) ∧
    (backward P Bw data F aa prior path pos_dist length).2 =
      P.logsum [(backward P Bw data F aa prior path pos_dist length).1 0 0,
        (backward P Bw data F aa prior path pos_dist length).1 0 1] ∧
    (length = 0 →
      (backward P Bw data F aa prior path pos_dist length).1 0 0 = P.log (1 - F) ∧
      (backward P Bw data F aa prior path pos_dist length).1 0 1 = P.log F) := by
  have hpos : ∀ i j, 1 ≤ i →
      (backward P Bw data F aa prior path pos_dist length).1 i j =
        colLoop (bwVal P data F aa prior pos_dist) length
          ((Bw.set length 0 (P.log 1)).set length 1 (P.log 1)) i j := by
    intro i j hi
    rw [backward_fst_apply, if_neg (by omega), if_neg (by omega)]
  have hlast : ∀ j, j < 2 →
      colLoop (bwVal P data F aa prior pos_dist) length
        ((Bw.set length 0 (P.log 1)).set length 1 (P.log 1)) length j = 0 := by
    intro j hj
    rw [colLoop_frame _ _ _ _ _ (Or.inl (le_refl _)), last_row _ _ _ _ hj, hlog1]
  refine ⟨?_, ?_, ?_, rfl, ?_⟩
  · intro h1
    rw [hpos _ _ h1, hpos _ _ h1]
    exact ⟨hlast 0 (by omega), hlast 1 (by omega)⟩
  · intro s k hs hn hk
    rw [hpos _ _ (by omega), hpos s 0 (by omega), hpos s 1 (by omega)]
    exact colLoop_rec (bwVal P data F aa prior pos_dist) length _ s k (by omega) hn hk
  · intro h1
    rw [hpos 1 0 (le_refl _), hpos 1 1 (le_refl _), backward_fst_apply, backward_fst_apply,
      if_neg (by omega), if_pos ⟨rfl, rfl⟩, if_pos ⟨rfl, rfl⟩]
    exact ⟨congrArg (fun x => x + P.log (1 - F))
        (colLoop_rec (bwVal P data F aa prior pos_dist) length _ 1 0 (le_refl _) h1 (by omega)),
      congrArg (fun x => x + P.log F)
        (colLoop_rec (bwVal P data F aa prior pos_dist) length _ 1 1 (le_refl _) h1 (by omega))⟩
  · intro h0
    subst h0
    rw [backward_fst_apply, backward_fst_apply, if_neg (by omega), if_pos ⟨rfl, rfl⟩,
      if_pos ⟨rfl, rfl⟩, hlast 0 (by omega), hlast 1 (by omega), hzero, hzero]
    exact ⟨rfl, rfl⟩

/-- C7 at a sample input: the last row of a sequence of length 2 over the rational model. -/
theorem C7_backward_recursion_witness :
    (qPrims mixTrans).log 1 = 0 ∧ (∀ a : LogQ, 0 + a = a) ∧
    (backward (qPrims mixTrans) demoBuf demoData (1 / 4) (1 / 2) demoPrior (fun _ => 0)
      demoDist 2).1 2 0 = 0 ∧
    (backward (qPrims mixTrans) demoBuf demoData (1 / 4) (1 / 2) demoPrior (fun _ => 0)
      demoDist 2).1 2 1 = 0 :=
  ⟨(qPrims_exact mixTrans).log_one, (qPrims_exact mixTrans).zero_add,
    (C7_backward_recursion (qPrims mixTrans) (qPrims_exact mixTrans).log_one
      (qPrims_exact mixTrans).zero_add demoBuf demoData (1 / 4) (1 / 2) demoPrior (fun _ => 0)
      demoDist 2).1 (by decide)⟩

/-- C8 (Viterbi labelling and score): after `viterbi` returns, `Vi[0] = {log(1-F), log(F)}`
and `Vi` obeys the forward recursion with `max` in place of `logsum2`; for every `s` in
`1..length`, `path[s]` is 0 or 1 and `path[s] = 0` exactly when `Vi[s][0] > Vi[s][1]`
(so a tie gives 1); `path[0]` keeps its contents; the returned value is
`max(Vi[length][0], Vi[length][1])`. -/
theorem C8_viterbi_labelling {R L : Type} [One R] [Sub R] [Add L] [Max L] [LT L]
    [DecidableRel (fun a b : L => a < b)] (P : Prims R L) (Vi data : DMat L)
    (F aa : R) (prior : Nat → Nat → Nat → L) (path : Nat → Nat) (pos_dist : Nat → R)
    (length : Nat) :
    (viterbi P Vi data F aa prior path pos_dist length).1 0 0 = P.log (1 - F) ∧
    (viterbi P Vi data F aa prior path pos_dist length).1 0 1 = P.log F ∧
    (∀ s l, 1 ≤ s → s ≤ length → l < 2 →
      (viterbi P Vi data F aa prior path pos_dist length).1 s l =
        max
          ((viterbi P Vi data F aa prior path pos_dist length).1 (s - 1) 0 +
            P.calc_trans 0 l (pos_dist s) F aa)
          ((viterbi P Vi data F aa prior path pos_dist length).1 (s - 1) 1 +
            P.calc_trans 1 l (pos_dist s) F aa) +
        P.logsum3 (data s 0 + prior s l 0) (data s 1 + prior s l 1)
          (data s 2 + prior s l 2)) ∧
    (∀ s, 1 ≤ s → s ≤ length →
      ((viterbi P Vi data F aa prior path pos_dist length).2.1 s = 0 ↔
        (viterbi P Vi data F aa prior path pos_dist length).1 s 0 >
          (viterbi P Vi data F aa prior path pos_dist length).1 s 1) ∧
      ((viterbi P Vi data F aa prior path pos_dist length).2.1 s = 1 ↔
        ¬ (viterbi P Vi data F aa prior path pos_dist length).1 s 0 >
          (viterbi P Vi data F aa prior path pos_dist length).1 s 1)) ∧
    (viterbi P Vi data F aa prior path pos_dist length).2.1 0 = path 0 ∧
    (viterbi P Vi data F aa prior path pos_dist length).2.2 =
      max ((viterbi P Vi data F aa prior path pos_dist length).1 length 0)
        ((viterbi P Vi data F aa prior path pos_dist length).1 length 1) := by
  refine ⟨?_, ?_, ?_, ?_, ?_, rfl⟩
  · rw [viterbi_fst, rowLoop_frame _ _ _ 0 0 (Or.inl rfl)]
    exact (init_row Vi _ _).1
  · rw [viterbi_fst, rowLoop_frame _ _ _ 0 1 (Or.inl rfl)]
    exact (init_row Vi _ _).2.1
  · intro s l hs hn hl
    rw [viterbi_fst]
    exact rowLoop_rec (viVal P data F aa prior pos_dist) length _ s l hs hn hl
  · intro s hs hn
    rw [viterbi_path, if_pos ⟨hs, hn⟩]
    by_cases hgt : (viterbi P Vi data F aa prior path pos_dist length).1 s 0 >
        (viterbi P Vi data F aa prior path pos_dist length).1 s 1
    · simp [hgt]
    · simp [hgt]
  · rw [viterbi_path, if_neg (by omega)]

/-- C8 at a sample input: the label of site 1 of a sequence of length 2 over the rational
model. -/
theorem C8_viterbi_labelling_witness :
    ((viterbi (qPrims mixTrans) demoBuf demoData (1 / 4) (1 / 2) demoPrior (fun _ => 7)
        demoDist 2).2.1 1 = 0 ↔
      (viterbi (qPrims mixTrans) demoBuf demoData (1 / 4) (1 / 2) demoPrior (fun _ => 7)
        demoDist 2).1 1 0 >
      (viterbi (qPrims mixTrans) demoBuf demoData (1 / 4) (1 / 2) demoPrior (fun _ => 7)
        demoDist 2).1 1 1) ∧
    ((viterbi (qPrims mixTrans) demoBuf demoData (1 / 4) (1 / 2) demoPrior (fun _ => 7)
        demoDist 2).2.1 1 = 1 ↔
      ¬ (viterbi (qPrims mixTrans) demoBuf demoData (1 / 4) (1 / 2) demoPrior (fun _ => 7)
        demoDist 2).1 1 0 >
      (viterbi (qPrims mixTrans) demoBuf demoData (1 / 4) (1 / 2) demoPrior (fun _ => 7)
        demoDist 2).1 1 1) :=
  (C8_viterbi_labelling (qPrims mixTrans) demoBuf demoData (1 / 4) (1 / 2) demoPrior
    (fun _ => 7) demoDist 2).2.2.2.1 1 (by decide) (by decide)

/-- C9 (likelihood objective): `lkl(x, p)` is the negation of the value `forward` returns
on `p`'s data, prior, pos_dist and length with `F = x[0]` and `aa = x[1]`, whatever the
output buffer and path handed to `forward`; the result is the same for every `F` and `aa`
stored in `p`; and the task context after the call is the context before it (matrices,
path and parameters included). -/
theorem C9_lkl_objective {R L : Type} [One R] [Sub R] [Add L] [Zero L] [Neg L]
    (P : Prims R L) (x : Nat → R) (p : pth_struct R L) (Fw : DMat L) (path : Nat → Nat)
    (F2 aa2 : R) :
    (lkl P x p).2 = -(forward P Fw p.data (x 0) (x 1) p.prior path p.pos_dist p.length).2 ∧
    (lkl P x { p with F := F2, aa := aa2 }).2 = (lkl P x p).2 ∧
    (lkl P x p).1 = p := by
  refine ⟨?_, rfl, rfl⟩
  show -(forward P _ p.data (x 0) (x 1) p.prior p.path p.pos_dist p.length).2 = _
  rw [forward_snd_buf P _ Fw p.data (x 0) (x 1) p.prior p.path path p.pos_dist p.length]

/-- C10 (submission failures are fatal): for each failure code of the pool's submit
(-1 invalid pool, -2 lock failure, -3 queue full, -4 shutting down, -5 thread failure)
`threadpool_add_task` raises the fatal error of that condition; when it returns normally
the code was none of these and the pool is the one the submit left; and since the submit
returns 0 or one of the five codes, it returns normally only when the code is 0, the pool
having accepted the task. -/
theorem C10_submission_fatal {R L Pool : Type}
    (threadpool_add : Pool → pth_struct R L → Pool × Int) (thread_pool : Pool) (type : Int)
    (Fw Bw Vi data : DMat L) (F aa : R) (prior : Nat → Nat → Nat → L) (path : Nat → Nat)
    (pos_dist : Nat → R) (length : Nat) (ret : Int)
    (hret : (threadpool_add thread_pool
      { type := type, Fw := Fw, Bw := Bw, Vi := Vi, data := data, F := F, aa := aa,
        prior := prior, path := path, pos_dist := pos_dist, length := length }).2 = ret) :
    (∀ m, (ret, m) ∈ [((-1 : Int), "invalid thread pool!"), (-2, "thread pool lock failure!"),
        (-3, "queue full!"), (-4, "thread pool is shutting down!"), (-5, "thread failure!")] →
      threadpool_add_task threadpool_add thread_pool type Fw Bw Vi data F aa prior path
        pos_dist length = error "threadpool_add_task" m) ∧
    (∀ pool2, threadpool_add_task threadpool_add thread_pool type Fw Bw Vi data F aa prior
        path pos_dist length = Except.ok pool2 →
      ret ∉ [(-1 : Int), -2, -3, -4, -5] ∧
      pool2 = (threadpool_add thread_pool
        { type := type, Fw := Fw, Bw := Bw, Vi := Vi, data := data, F := F, aa := aa,
          prior := prior, path := path, pos_dist := pos_dist, length := length }).1) ∧
    (ret ∈ [(0 : Int), -1, -2, -3, -4, -5] →
      ∀ pool2, threadpool_add_task threadpool_add thread_pool type Fw Bw Vi data F aa prior
        path pos_dist length = Except.ok pool2 → ret = 0) := by
  subst hret
  refine ⟨?_, ?_, ?_⟩
  · intro m hm
    simp only [List.mem_cons, Prod.mk.injEq, List.mem_nil_iff, or_false] at hm
    rcases hm with ⟨h, rfl⟩ | ⟨h, rfl⟩ | ⟨h, rfl⟩ | ⟨h, rfl⟩ | ⟨h, rfl⟩ <;>
      simp [threadpool_add_task, h]
  · intro pool2 hok
    simp only [threadpool_add_task, error] at hok
    split_ifs at hok with h1 h2 h3 h4 h5
    simp only [Except.ok.injEq] at hok
    refine ⟨?_, hok.symm⟩
    simp only [List.mem_cons, List.mem_nil_iff, or_false, not_or]
    exact ⟨h1, h2, h3, h4, h5⟩
  · intro hmem pool2 hok
    simp only [threadpool_add_task, error] at hok
    split_ifs at hok with h1 h2 h3 h4 h5
    simp only [List.mem_cons, List.mem_nil_iff, or_false] at hmem
    rcases hmem with h | h | h | h | h | h
    · exact h
    · exact absurd h h1
    · exact absurd h h2
    · exact absurd h h3
    · exact absurd h h4
    · exact absurd h h5

/-- C10 at a sample input: a full queue of capacity 0 refuses the task with code -3 and
the submission ends in the queue-full error. -/
theorem C10_submission_fatal_witness :
    threadpool_add_task (boundedAdd 0) ([] : List (pth_struct ℚ LogQ)) 1 demoBuf demoBuf
      demoBuf demoData (1 / 4) (1 / 2) demoPrior (fun _ => 0) demoDist 2 =
      error "threadpool_add_task" "queue full!" :=
  (C10_submission_fatal (boundedAdd 0) ([] : List (pth_struct ℚ LogQ)) 1 demoBuf demoBuf
    demoBuf demoData (1 / 4) (1 / 2) demoPrior (fun _ => 0) demoDist 2 (-3) rfl).1
    "queue full!" (by simp)

/-- C11 (unrecognized task kind): for a descriptor whose type is none of 1, 2, 3, 4,
`thread_slave` raises the fatal error "invalid thread task option!" and the context is
the one it was given (no engine ran: `Fw`, `Bw`, `Vi`, `path`, `F`, `aa` are unchanged);
for type 1, 2, 3, 4 it raises no error and the context is the given one with the output
of exactly that kind's engine: `forward` into `Fw`, `backward` into `Bw`, `viterbi` into
`Vi` and `path`, the optimizer's point into `F` and `aa`. -/
theorem C11_task_dispatch {R L : Type} [Zero R] [One R] [Sub R] [Add L] [Zero L] [Neg L]
    [Max L] [LT L] [DecidableRel (fun a b : L => a < b)] (P : Prims R L)
    (findmax_bfgs : Optimizer R L (pth_struct R L)) (p : pth_struct R L) :
    (p.type ≠ 1 → p.type ≠ 2 → p.type ≠ 3 → p.type ≠ 4 →
      (thread_slave P findmax_bfgs p).2 = error "thread_slave" "invalid thread task option!" ∧
      (thread_slave P findmax_bfgs p).1 = p) ∧
    (p.type = 1 →
      (thread_slave P findmax_bfgs p).2 = Except.ok () ∧
      (thread_slave P findmax_bfgs p).1 =
        { p with
          Fw := (forward P p.Fw p.data p.F p.aa p.prior p.path p.pos_dist p.length).1 }) ∧
    (p.type = 2 →
      (thread_slave P findmax_bfgs p).2 = Except.ok () ∧
      (thread_slave P findmax_bfgs p).1 =
        { p with
          Bw := (backward P p.Bw p.data p.F p.aa p.prior p.path p.pos_dist p.length).1 }) ∧
    (p.type = 3 →
      (thread_slave P findmax_bfgs p).2 = Except.ok () ∧
      (thread_slave P findmax_bfgs p).1 =
        { p with
          Vi := (viterbi P p.Vi p.data p.F p.aa p.prior p.path p.pos_dist p.length).1,
          path :=
            (viterbi P p.Vi p.data p.F p.aa p.prior p.path p.pos_dist p.length).2.1 }) ∧
    (p.type = 4 →
      (thread_slave P findmax_bfgs p).2 = Except.ok () ∧
      (thread_slave P findmax_bfgs p).1 =
        { p with
          F := (findmax_bfgs 2 (arr2 p.F p.aa) p (fun pars data => (lkl P pars data).2) none
            (arr2 0 0) (arr2 1 1) (arr2 2 2) (-1)).1 0,
          aa := (findmax_bfgs 2 (arr2 p.F p.aa) p (fun pars data => (lkl P pars data).2) none
            (arr2 0 0) (arr2 1 1) (arr2 2 2) (-1)).1 1 }) := by
  refine ⟨?_, ?_, ?_, ?_, ?_⟩
  · intro h1 h2 h3 h4
    simp only [thread_slave, if_neg h1, if_neg h2, if_neg h3, if_neg h4, and_self]
  · intro h1
    simp only [thread_slave, if_pos h1, and_self]
  · intro h2
    have h1 : p.type ≠ 1 := by omega
    simp only [thread_slave, if_neg h1, if_pos h2, and_self]
  · intro h3
    have h1 : p.type ≠ 1 := by omega
    have h2 : p.type ≠ 2 := by omega
    simp only [thread_slave, if_neg h1, if_neg h2, if_pos h3, and_self]
  · intro h4
    have h1 : p.type ≠ 1 := by omega
    have h2 : p.type ≠ 2 := by omega
    have h3 : p.type ≠ 3 := by omega
    simp only [thread_slave, if_neg h1, if_neg h2, if_neg h3, if_pos h4, and_self]

/-- C11 at a sample input: a task of type 7 ends in the fatal error with its context
untouched. -/
theorem C11_task_dispatch_witness :
    (thread_slave (qPrims mixTrans) boxMid (demoTask 7)).2 =
      error "thread_slave" "invalid thread task option!" ∧
    (thread_slave (qPrims mixTrans) boxMid (demoTask 7)).1 = demoTask 7 :=
  (C11_task_dispatch (qPrims mixTrans) boxMid (demoTask 7)).1 (by decide) (by decide)
    (by decide) (by decide)

/-- C12 (optimize task): for a task of type 4, whatever the optimizer, `thread_slave`
calls it once with dimension 2, initial point `{F, aa}`, no gradient, lower bounds
`{0, 0}`, upper bounds `{1, 1}`, bound kinds `{2, 2}`, verbosity -1 and the objective `lkl`
over this task's context, and afterwards `F` and `aa` are entries 0 and 1 of the point the
optimizer left in the value vector; the objective at `x` is minus the value `forward`
returns on the task's data, prior, pos_dist and length with `F = x[0]`, `aa = x[1]`. -/
theorem C12_optimize_task {R L : Type} [Zero R] [One R] [Sub R] [Add L] [Zero L] [Neg L]
    [Max L] [LT L] [DecidableRel (fun a b : L => a < b)] (P : Prims R L)
    (findmax_bfgs : Optimizer R L (pth_struct R L)) (p : pth_struct R L) (h4 : p.type = 4) :
    (thread_slave P findmax_bfgs p).1.F =
      (findmax_bfgs 2 (arr2 p.F p.aa) p (fun pars data => (lkl P pars data).2) none
        (arr2 0 0) (arr2 1 1) (arr2 2 2) (-1)).1 0 ∧
    (thread_slave P findmax_bfgs p).1.aa =
      (findmax_bfgs 2 (arr2 p.F p.aa) p (fun pars data => (lkl P pars data).2) none
        (arr2 0 0) (arr2 1 1) (arr2 2 2) (-1)).1 1 ∧
    ((arr2 p.F p.aa : Nat → R) 0 = p.F ∧ (arr2 p.F p.aa : Nat → R) 1 = p.aa) ∧
    ((arr2 0 0 : Nat → R) 0 = 0 ∧ (arr2 0 0 : Nat → R) 1 = 0) ∧
    ((arr2 1 1 : Nat → R) 0 = 1 ∧ (arr2 1 1 : Nat → R) 1 = 1) ∧
    (∀ (x : Nat → R) (Fw : DMat L) (path : Nat → Nat),
      (lkl P x p).2 = -(forward P Fw p.data (x 0) (x 1) p.prior path p.pos_dist p.length).2) := by
  have h1 : p.type ≠ 1 := by omega
  have h2 : p.type ≠ 2 := by omega
  have h3 : p.type ≠ 3 := by omega
  refine ⟨?_, ?_, ⟨rfl, rfl⟩, ⟨rfl, rfl⟩, ⟨rfl, rfl⟩, ?_⟩
  · simp only [thread_slave, if_neg h1, if_neg h2, if_neg h3, if_pos h4]
  · simp only [thread_slave, if_neg h1, if_neg h2, if_neg h3, if_pos h4]
  · intro x Fw path
    show -(forward P _ p.data (x 0) (x 1) p.prior p.path p.pos_dist p.length).2 = _
    rw [forward_snd_buf P _ Fw p.data (x 0) (x 1) p.prior p.path path p.pos_dist p.length]

/-- C12 at a sample input: with the stand-in optimizer that leaves the centre of the box,
a task of type 4 ends with `F = 1/2` and `aa = 1/2`. -/
theorem C12_optimize_task_witness :
    (demoTask 4).type = 4 ∧
    (thread_slave (qPrims mixTrans) boxMid (demoTask 4)).1.F = 1 / 2 ∧
    (thread_slave (qPrims mixTrans) boxMid (demoTask 4)).1.aa = 1 / 2 :=
  ⟨rfl,
    (C12_optimize_task (qPrims mixTrans) boxMid (demoTask 4) rfl).1.trans
      (by simp [boxMid, arr2]),
    (C12_optimize_task (qPrims mixTrans) boxMid (demoTask 4) rfl).2.1.trans
      (by simp [boxMid, arr2])⟩

/-- C13 (frame of a task): `thread_slave` never changes `data`, `prior`, `pos_dist`,
`length` or `type`.  For type 1 it leaves `F`, `aa`, `Bw`, `Vi`, `path` and every cell of
`Fw` outside rows `0..length`, columns 0 and 1; for type 2 the same with `Bw` in place of
`Fw`; for type 3 it leaves `F`, `aa`, `Fw`, `Bw`, every cell of `Vi` outside rows
`0..length`, columns 0 and 1, and every entry of `path` outside `1..length`; for type 4 it
leaves `Fw`, `Bw`, `Vi` and `path`, changing `F` and `aa` only. -/
theorem C13_task_frame {R L : Type} [Zero R] [One R] [Sub R] [Add L] [Zero L] [Neg L]
    [Max L] [LT L] [DecidableRel (fun a b : L => a < b)] (P : Prims R L)
    (findmax_bfgs : Optimizer R L (pth_struct R L)) (p : pth_struct R L) :
    ((thread_slave P findmax_bfgs p).1.data = p.data ∧
      (thread_slave P findmax_bfgs p).1.prior = p.prior ∧
      (thread_slave P findmax_bfgs p).1.pos_dist = p.pos_dist ∧
      (thread_slave P findmax_bfgs p).1.length = p.length ∧
      (thread_slave P findmax_bfgs p).1.type = p.type) ∧
    (p.type = 1 →
      (thread_slave P findmax_bfgs p).1.F = p.F ∧
      (thread_slave P findmax_bfgs p).1.aa = p.aa ∧
      (thread_slave P findmax_bfgs p).1.Bw = p.Bw ∧
      (thread_slave P findmax_bfgs p).1.Vi = p.Vi ∧
      (thread_slave P findmax_bfgs p).1.path = p.path ∧
      ∀ i j, p.length < i ∨ 2 ≤ j → (thread_slave P findmax_bfgs p).1.Fw i j = p.Fw i j) ∧
    (p.type = 2 →
      (thread_slave P findmax_bfgs p).1.F = p.F ∧
      (thread_slave P findmax_bfgs p).1.aa = p.aa ∧
      (thread_slave P findmax_bfgs p).1.Fw = p.Fw ∧
      (thread_slave P findmax_bfgs p).1.Vi = p.Vi ∧
      (thread_slave P findmax_bfgs p).1.path = p.path ∧
      ∀ i j, p.length < i ∨ 2 ≤ j → (thread_slave P findmax_bfgs p).1.Bw i j = p.Bw i j) ∧
    (p.type = 3 →
      (thread_slave P findmax_bfgs p).1.F = p.F ∧
      (thread_slave P findmax_bfgs p).1.aa = p.aa ∧
      (thread_slave P findmax_bfgs p).1.Fw = p.Fw ∧
      (thread_slave P findmax_bfgs p).1.Bw = p.Bw ∧
      (∀ i j, p.length < i ∨ 2 ≤ j →
        (thread_slave P findmax_bfgs p).1.Vi i j = p.Vi i j) ∧
      ∀ s, s = 0 ∨ p.length < s → (thread_slave P findmax_bfgs p).1.path s = p.path s) ∧
    (p.type = 4 →
      (thread_slave P findmax_bfgs p).1.Fw = p.Fw ∧
      (thread_slave P findmax_bfgs p).1.Bw = p.Bw ∧
      (thread_slave P findmax_bfgs p).1.Vi = p.Vi ∧
      (thread_slave P findmax_bfgs p).1.path = p.path) := by
  refine ⟨?_, ?_, ?_, ?_, ?_⟩
  · unfold thread_slave
    split_ifs <;> exact ⟨rfl, rfl, rfl, rfl, rfl⟩
  · intro h1
    simp only [thread_slave, if_pos h1, true_and]
    intro i j hij
    exact forward_frame P p.Fw p.data p.F p.aa p.prior p.path p.pos_dist p.length i j hij
  · intro h2
    have h1 : p.type ≠ 1 := by omega
    simp only [thread_slave, if_neg h1, if_pos h2, true_and]
    intro i j hij
    exact backward_frame P p.Bw p.data p.F p.aa p.prior p.path p.pos_dist p.length i j hij
  · intro h3
    have h1 : p.type ≠ 1 := by omega
    have h2 : p.type ≠ 2 := by omega
    simp only [thread_slave, if_neg h1, if_neg h2, if_pos h3, true_and]
    refine ⟨?_, ?_⟩
    · intro i j hij
      exact viterbi_frame P p.Vi p.data p.F p.aa p.prior p.path p.pos_dist p.length i j hij
    · intro s hs
      rw [viterbi_path, if_neg (by omega)]
  · intro h4
    have h1 : p.type ≠ 1 := by omega
    have h2 : p.type ≠ 2 := by omega
    have h3 : p.type ≠ 3 := by omega
    simp only [thread_slave, if_neg h1, if_neg h2, if_neg h3, if_pos h4, and_self]

/-- C13 at a sample input: a viterbi task over the sample sequence leaves `path[0]` and
`path[3]` as they were. -/
theorem C13_task_frame_witness :
    (demoTask 3).type = 3 ∧
    (thread_slave (qPrims mixTrans) boxMid (demoTask 3)).1.path 0 = (demoTask 3).path 0 ∧
    (thread_slave (qPrims mixTrans) boxMid (demoTask 3)).1.path 3 = (demoTask 3).path 3 :=
  ⟨rfl,
    (C13_task_frame (qPrims mixTrans) boxMid (demoTask 3)).2.2.2.1 rfl |>.2.2.2.2.2 0
      (Or.inl rfl),
    (C13_task_frame (qPrims mixTrans) boxMid (demoTask 3)).2.2.2.1 rfl |>.2.2.2.2.2 3
      (Or.inr (by decide))⟩

/-- C14 (forward computes the path sum): for an exponential `exp` of exact arithmetic, `exp`
of the value `forward` returns is the sum, over all `2 ^ (length + 1)` state sequences
`(z_0, ..., z_length)` over the states 0 and 1, of `pi(z_0)` times the product over
`s = 1..length` of `exp(calc_trans(z_{s-1}, z_s, pos_dist[s], F, aa))` times the sum over
`g = 0,1,2` of `exp(data[s][g] + prior[s][z_s][g])`, where `pi(0) = exp(log(1-F))` and
`pi(1) = exp(log(F))`, which are `1-F` and `F` for `F` in `[0,1]`. -/
theorem C14_forward_path_sum {R L S : Type} [LinearOrderedField R] [Add L]
    [CommSemiring S] (P : Prims R L) (exp : L → S) (ofR : R → S) (hX : IsExp P exp ofR)
    (Fw data : DMat L) (F aa : R) (prior : Nat → Nat → Nat → L) (path : Nat → Nat)
    (pos_dist : Nat → R) (length : Nat) :
    exp (forward P Fw data F aa prior path pos_dist length).2 =
      ((allSeqs length).map (pathProb P exp data F aa prior pos_dist length)).sum ∧
    (0 ≤ F → F ≤ 1 → exp (P.log (1 - F)) = ofR (1 - F) ∧ exp (P.log F) = ofR F) := by
  refine ⟨?_, fun h0 h1 => ⟨hX.exp_log _ (sub_nonneg.mpr h1), hX.exp_log _ h0⟩⟩
  rw [forward_snd, hX.exp_logsum,
    forward_cell_path_sum P exp ofR hX Fw data F aa prior path pos_dist length length
      (le_refl _) 0 (by omega),
    forward_cell_path_sum P exp ofR hX Fw data F aa prior path pos_dist length length
      (le_refl _) 1 (by omega)]
  simp only [allSeqs, List.map_append, List.sum_append]

/-- C14 at a sample input: the sample sequence of length 2 over the rational model, whose
exponential is the stored rational. -/
theorem C14_forward_path_sum_witness :
    IsExp (qPrims mixTrans) LogQ.exp Rat.toNNRat ∧
    (forward (qPrims mixTrans) demoBuf demoData (1 / 4) (1 / 2) demoPrior (fun _ => 0)
      demoDist 2).2.exp =
      ((allSeqs 2).map
        (pathProb (qPrims mixTrans) LogQ.exp demoData (1 / 4) (1 / 2) demoPrior demoDist
          2)).sum :=
  ⟨qPrims_isExp mixTrans,
    (C14_forward_path_sum (qPrims mixTrans) LogQ.exp Rat.toNNRat (qPrims_isExp mixTrans)
      demoBuf demoData (1 / 4) (1 / 2) demoPrior (fun _ => 0) demoDist 2).1⟩

/-- C15 (Viterbi score is the best path score): in exact max-plus arithmetic the value
`viterbi` returns is the maximum, over all state sequences `(z_0, ..., z_length)` over the
states 0 and 1, of `log pi(z_0)` plus the sum over `s = 1..length` of
`calc_trans(z_{s-1}, z_s, pos_dist[s], F, aa)` plus
`logsum3(data[s][g] + prior[s][z_s][g], g = 0,1,2)`: no sequence scores more, and one
sequence scores exactly that. -/
theorem C15_viterbi_best_path {R L : Type} [One R] [Sub R] [Add L] [LE L] [Max L] [LT L]
    [DecidableRel (fun a b : L => a < b)] (P : Prims R L) (hM : MaxPlus L)
    (Vi data : DMat L) (F aa : R) (prior : Nat → Nat → Nat → L) (path : Nat → Nat)
    (pos_dist : Nat → R) (length : Nat) :
    (∀ z ∈ allSeqs length,
      pathScore P data F aa prior pos_dist length z ≤
        (viterbi P Vi data F aa prior path pos_dist length).2.2) ∧
    (∃ z ∈ allSeqs length,
      pathScore P data F aa prior pos_dist length z =
        (viterbi P Vi data F aa prior path pos_dist length).2.2) := by
  have c0 := viterbi_cell_best P hM Vi data F aa prior path pos_dist length length
    (le_refl _) 0 (by omega)
  have c1 := viterbi_cell_best P hM Vi data F aa prior path pos_dist length length
    (le_refl _) 1 (by omega)
  rw [viterbi_snd]
  constructor
  · intro z hz
    simp only [allSeqs, List.mem_append] at hz
    rcases hz with hz | hz
    · exact hM.le_trans _ _ _ (c0.1 z hz) (hM.le_max_left _ _)
    · exact hM.le_trans _ _ _ (c1.1 z hz) (hM.le_max_right _ _)
  · rcases hM.max_choice ((viterbi P Vi data F aa prior path pos_dist length).1 length 0)
        ((viterbi P Vi data F aa prior path pos_dist length).1 length 1) with hmax | hmax
    · obtain ⟨z, hz, hsc⟩ := c0.2
      exact ⟨z, by simp only [allSeqs, List.mem_append]; exact Or.inl hz, by rw [hsc, hmax]⟩
    · obtain ⟨z, hz, hsc⟩ := c1.2
      exact ⟨z, by simp only [allSeqs, List.mem_append]; exact Or.inr hz, by rw [hsc, hmax]⟩

/-- C15 at a sample input: the sequence `(1, 0, 1)` scores at most the value `viterbi`
returns on the sample sequence of length 2 over the rational model. -/
theorem C15_viterbi_best_path_witness :
    MaxPlus LogQ ∧ [1, 0, 1] ∈ allSeqs 2 ∧
    pathScore (qPrims mixTrans) demoData (1 / 4) (1 / 2) demoPrior demoDist 2 [1, 0, 1] ≤
      (viterbi (qPrims mixTrans) demoBuf demoData (1 / 4) (1 / 2) demoPrior (fun _ => 0)
        demoDist 2).2.2 :=
  ⟨logQ_maxPlus, by decide,
    (C15_viterbi_best_path (qPrims mixTrans) logQ_maxPlus demoBuf demoData (1 / 4) (1 / 2)
      demoPrior (fun _ => 0) demoDist 2).1 [1, 0, 1] (by decide)⟩

/-- C16 (per-site forward-backward consistency): in exact arithmetic, with `Fw` and `Bw` the
matrices `forward` and `backward` fill on the same inputs, for every site `s` in
`1..length`, `logsum2(Fw[s][0] + Bw[s][0], Fw[s][1] + Bw[s][1])` is the value `forward`
returns; at site 0, where the boundary is already folded into `Bw`, the total is
`logsum2(Bw[0][0], Bw[0][1])`. -/
theorem C16_site_consistency {R L : Type} [LinearOrderedField R] [Add L] [Zero L]
    (P : Prims R L) (hE : Exact P) (Fw Bw data : DMat L) (F aa : R)
    (prior : Nat → Nat → Nat → L) (path : Nat → Nat) (pos_dist : Nat → R) (length : Nat) :
    (∀ s, 1 ≤ s → s ≤ length →
      P.logsum2
        ((forward P Fw data F aa prior path pos_dist length).1 s 0 +
          (backward P Bw data F aa prior path pos_dist length).1 s 0)
        ((forward P Fw data F aa prior path pos_dist length).1 s 1 +
          (backward P Bw data F aa prior path pos_dist length).1 s 1) =
        (forward P Fw data F aa prior path pos_dist length).2) ∧
    P.logsum2 ((backward P Bw data F aa prior path pos_dist length).1 0 0)
        ((backward P Bw data F aa prior path pos_dist length).1 0 1) =
      (forward P Fw data F aa prior path pos_dist length).2 := by
  refine ⟨?_, ?_⟩
  · intro s h1 hs
    rw [backward_fst_apply, backward_fst_apply, if_neg (by omega), if_neg (by omega),
      if_neg (by omega), if_neg (by omega)]
    exact fb_total P hE Fw Bw data F aa prior path pos_dist length s hs
  · have h0 := fb_total P hE Fw Bw data F aa prior path pos_dist length 0 (Nat.zero_le _)
    have hrec := forward_rec P Fw data F aa prior path pos_dist length
    rw [hrec.1, hrec.2.1, hE.add_comm (P.log (1 - F)), hE.add_comm (P.log F)] at h0
    rw [backward_fst_apply, backward_fst_apply, if_neg (by omega), if_pos ⟨rfl, rfl⟩,
      if_pos ⟨rfl, rfl⟩]
    exact h0

/-- C16 at a sample input: site 1 of the sample sequence of length 2 over the rational
model. -/
theorem C16_site_consistency_witness :
    Exact (qPrims mixTrans) ∧
    (qPrims mixTrans).logsum2
      ((forward (qPrims mixTrans) demoBuf demoData (1 / 4) (1 / 2) demoPrior (fun _ => 0)
          demoDist 2).1 1 0 +
        (backward (qPrims mixTrans) demoBuf demoData (1 / 4) (1 / 2) demoPrior (fun _ => 0)
          demoDist 2).1 1 0)
      ((forward (qPrims mixTrans) demoBuf demoData (1 / 4) (1 / 2) demoPrior (fun _ => 0)
          demoDist 2).1 1 1 +
        (backward (qPrims mixTrans) demoBuf demoData (1 / 4) (1 / 2) demoPrior (fun _ => 0)
          demoDist 2).1 1 1) =
      (forward (qPrims mixTrans) demoBuf demoData (1 / 4) (1 / 2) demoPrior (fun _ => 0)
        demoDist 2).2 :=
  ⟨qPrims_exact mixTrans,
    (C16_site_consistency (qPrims mixTrans) (qPrims_exact mixTrans) demoBuf demoBuf demoData
      (1 / 4) (1 / 2) demoPrior (fun _ => 0) demoDist 2).1 1 (by decide) (by decide)⟩

/-- C17 (column-wise labelling is not a traceback): for the sequence `trapData` of length 2
with `F = 1/2`, `aa = 1/5` (both in `[0,1]`) and the two-state kernel `mixTrans`, whose rows
sum to probability one, over the rational model: `viterbi` labels site 1 with state 0 and
site 2 with state 1, and the emitted path completed with label 0 or with label 1 at site 0
has a joint log-probability strictly smaller than the value `viterbi` returns, which is the
score of the state sequence `(1, 1, 1)`; so the emitted path is not a most probable state
path. -/
theorem C17_labelling_not_traceback :
    (2 ≤ 2 ∧ (0 : ℚ) ≤ 1 / 2 ∧ (1 / 2 : ℚ) ≤ 1 ∧ (0 : ℚ) ≤ 1 / 5 ∧ (1 / 5 : ℚ) ≤ 1) ∧
    ((∀ d : ℚ, (qPrims mixTrans).logsum2 (mixTrans 0 0 d (1 / 2) (1 / 5))
        (mixTrans 0 1 d (1 / 2) (1 / 5)) = 0) ∧
      ∀ d : ℚ, (qPrims mixTrans).logsum2 (mixTrans 1 0 d (1 / 2) (1 / 5))
        (mixTrans 1 1 d (1 / 2) (1 / 5)) = 0) ∧
    ((viterbi (qPrims mixTrans) demoBuf trapData (1 / 2) (1 / 5) trapPrior (fun _ => 0)
        demoDist 2).2.1 1 = 0 ∧
      (viterbi (qPrims mixTrans) demoBuf trapData (1 / 2) (1 / 5) trapPrior (fun _ => 0)
        demoDist 2).2.1 2 = 1) ∧
    pathScore (qPrims mixTrans) trapData (1 / 2) (1 / 5) trapPrior demoDist 2
        [0,
          (viterbi (qPrims mixTrans) demoBuf trapData (1 / 2) (1 / 5) trapPrior (fun _ => 0)
            demoDist 2).2.1 1,
          (viterbi (qPrims mixTrans) demoBuf trapData (1 / 2) (1 / 5) trapPrior (fun _ => 0)
            demoDist 2).2.1 2] <
      (viterbi (qPrims mixTrans) demoBuf trapData (1 / 2) (1 / 5) trapPrior (fun _ => 0)
        demoDist 2).2.2 ∧
    pathScore (qPrims mixTrans) trapData (1 / 2) (1 / 5) trapPrior demoDist 2
        [1,
          (viterbi (qPrims mixTrans) demoBuf trapData (1 / 2) (1 / 5) trapPrior (fun _ => 0)
            demoDist 2).2.1 1,
          (viterbi (qPrims mixTrans) demoBuf trapData (1 / 2) (1 / 5) trapPrior (fun _ => 0)
            demoDist 2).2.1 2] <
      (viterbi (qPrims mixTrans) demoBuf trapData (1 / 2) (1 / 5) trapPrior (fun _ => 0)
        demoDist 2).2.2 ∧
    ([1, 1, 1] ∈ allSeqs 2 ∧
      pathScore (qPrims mixTrans) trapData (1 / 2) (1 / 5) trapPrior demoDist 2 [1, 1, 1] =
        (viterbi (qPrims mixTrans) demoBuf trapData (1 / 2) (1 / 5) trapPrior (fun _ => 0)
          demoDist 2).2.2) := by
  have hr := trap_viterbi_result
  have hs := trap_scores
  refine ⟨⟨le_refl _, by norm_num, by norm_num, by norm_num, by norm_num⟩, ⟨?_, ?_⟩,
    ⟨hr.1, hr.2.1⟩, ?_, ?_, by decide, ?_⟩
  · intro d
    simp [qPrims, mixTrans, LogQ.eq_iff, LogQ.zero_exp, coe_toNNRat_max]
    norm_num
  · intro d
    simp [qPrims, mixTrans, LogQ.eq_iff, LogQ.zero_exp, coe_toNNRat_max]
    norm_num
  · rw [hr.1, hr.2.1, hr.2.2, hs.1, LogQ.lt_iff]
    push_cast
    norm_num
  · rw [hr.1, hr.2.1, hr.2.2, hs.2.1, LogQ.lt_iff]
    push_cast
    norm_num
  · rw [hr.2.2, hs.2.2]

/-- C18 (independence from prior buffer contents): run on the same data, prior, pos_dist,
length, `F` and `aa` with two arbitrary initial contents of the output matrix (and, for
`viterbi`, of `path`), each of `forward`, `backward` and `viterbi` returns the same value
and leaves the same contents in rows `0..length`, columns 0 and 1 of the matrix; `viterbi`
also leaves the same labels `path[1..length]`.  It holds for whatever the primitives
compute. -/
theorem C18_buffer_independence {R L : Type} [One R] [Sub R] [Add L] [Max L] [LT L]
    [DecidableRel (fun a b : L => a < b)] (P : Prims R L) (M M2 data : DMat L)
    (F aa : R) (prior : Nat → Nat → Nat → L) (path path2 : Nat → Nat) (pos_dist : Nat → R)
    (length : Nat) :
    ((forward P M data F aa prior path pos_dist length).2 =
        (forward P M2 data F aa prior path2 pos_dist length).2 ∧
      ∀ s l, s ≤ length → l < 2 →
        (forward P M data F aa prior path pos_dist length).1 s l =
          (forward P M2 data F aa prior path2 pos_dist length).1 s l) ∧
    ((backward P M data F aa prior path pos_dist length).2 =
        (backward P M2 data F aa prior path2 pos_dist length).2 ∧
      ∀ s l, s ≤ length → l < 2 →
        (backward P M data F aa prior path pos_dist length).1 s l =
          (backward P M2 data F aa prior path2 pos_dist length).1 s l) ∧
    ((viterbi P M data F aa prior path pos_dist length).2.2 =
        (viterbi P M2 data F aa prior path2 pos_dist length).2.2 ∧
      (∀ s l, s ≤ length → l < 2 →
        (viterbi P M data F aa prior path pos_dist length).1 s l =
          (viterbi P M2 data F aa prior path2 pos_dist length).1 s l) ∧
      ∀ s, 1 ≤ s → s ≤ length →
        (viterbi P M data F aa prior path pos_dist length).2.1 s =
          (viterbi P M2 data F aa prior path2 pos_dist length).2.1 s) := by
  have hf := forward_fst_buf P M M2 data F aa prior path path2 pos_dist length
  have hb := backward_fst_buf P M M2 data F aa prior path path2 pos_dist length
  have hv := viterbi_fst_buf P M M2 data F aa prior path path2 pos_dist length
  refine ⟨⟨?_, fun s l hs hl => hf s l hs hl⟩, ⟨?_, fun s l hs hl => hb s l hs hl⟩,
    ?_, fun s l hs hl => hv s l hs hl, ?_⟩
  · exact forward_snd_buf P M M2 data F aa prior path path2 pos_dist length
  · rw [backward_snd, backward_snd, hb 0 0 (Nat.zero_le _) (by omega),
      hb 0 1 (Nat.zero_le _) (by omega)]
  · rw [viterbi_snd, viterbi_snd, hv length 0 (le_refl _) (by omega),
      hv length 1 (le_refl _) (by omega)]
  · intro s h1 hs
    have e1 := viterbi_path P M data F aa prior path pos_dist length s
    have e2 := viterbi_path P M2 data F aa prior path2 pos_dist length s
    rw [if_pos (And.intro h1 hs)] at e1 e2
    rw [e1, e2, hv s 0 hs (by omega), hv s 1 hs (by omega)]

/-- C18 at a sample input: `forward` on the sample sequence fills cell `Fw[2][1]` alike
from the sample buffer and from a buffer of -infinity. -/
theorem C18_buffer_independence_witness :
    (forward (qPrims mixTrans) demoBuf demoData (1 / 4) (1 / 2) demoPrior (fun _ => 0)
      demoDist 2).1 2 1 =
    (forward (qPrims mixTrans) (fun _ _ => ⟨0⟩) demoData (1 / 4) (1 / 2) demoPrior
      (fun _ => 5) demoDist 2).1 2 1 :=
  (C18_buffer_independence (qPrims mixTrans) demoBuf (fun _ _ => ⟨0⟩) demoData (1 / 4)
    (1 / 2) demoPrior (fun _ => 0) (fun _ => 5) demoDist 2).1.2 2 1 (by decide) (by decide)

end NgsFHMM
